import Mathlib

set_option maxRecDepth 100000

/-!
# Verification of the anki2html package decoder and card-resolution engine

Shallow embedding of the Go sources (`main.go`, `database_model.go`, and the
second variant of `main.go` that additionally rewrites sound tags).  Strings
are modelled as `List Char`; Go `int`/`int64` as `Int`; Go map lookups as
last-binding-wins association-list lookups; fallible code returns `Except`.
A Go runtime panic (slice index out of range) is modelled as the
distinguished error `Err.panicOOB`, since it aborts the whole program.
-/

/-- Go strings, modelled as lists of characters. -/
abbrev Str := List Char

/-! ## Timestamp codecs (`database_model.go`)

Go `time.Time` is modelled by the total number of nanoseconds since the
epoch (`GoTime`).  `time.Unix sec nsec` normalises its arguments, so the
represented instant is `sec * 10^9 + nsec` nanoseconds; `Time.Unix` returns
the floor-divided second count and `Time.UnixNano` the total nanosecond
count.  Int64 overflow (beyond year 2262 for `UnixNano`) is outside the
range of every input considered here and is not modelled. -/

/-- A `time.Time` instant: nanoseconds since the Unix epoch. -/
abbrev GoTime := Int

/-- `time.Unix sec nsec`: the instant `sec` seconds plus `nsec` nanoseconds. -/
def timeUnix (sec nsec : Int) : GoTime := sec * 1000000000 + nsec

/-- `Time.Unix()`: whole seconds since the epoch (floor division,
because the normalised nanosecond part lies in `[0, 10^9)`). -/
def timeUnixSec (t : GoTime) : Int := Int.fdiv t 1000000000

/-- `Time.UnixNano()`: nanoseconds since the epoch. -/
def timeUnixNano (t : GoTime) : Int := t

/-- `SecondsTime.Scan`, `int64` branch: `time.Unix(secs, 0)`. -/
def SecondsTime.scanInt (secs : Int) : GoTime := timeUnix secs 0

/-- `SecondsTime.Value`: `time.Time(s).Unix()`. -/
def SecondsTime.value (t : GoTime) : Int := timeUnixSec t

/-- `MilliSecondsTime.Scan`, `int64` branch:
`time.Unix(msecs/1000, msecs%1000)` with Go truncated division. -/
def MilliSecondsTime.scanInt (msecs : Int) : GoTime :=
  timeUnix (Int.tdiv msecs 1000) (Int.tmod msecs 1000)

/-- `MilliSecondsTime.Value`: `time.Time(s).UnixNano()`. -/
def MilliSecondsTime.value (t : GoTime) : Int := timeUnixNano t

/-! ## Go `strings.Replace(s, old, new, -1)`

Left-to-right scan, non-overlapping matches, the replacement text is not
rescanned.  Defined with an explicit fuel argument (one unit per examined
character) so that closed instances reduce inside the kernel; `replList`
supplies the always-sufficient fuel `s.length`. -/

/-- Fuelled core of `strings.Replace`. -/
def replListF (p r : Str) : Nat → Str → Str
  | 0, s => s
  | _ + 1, [] => []
  | fuel + 1, c :: cs =>
    if p ≠ [] ∧ p <+: (c :: cs) then
      r ++ replListF p r fuel ((c :: cs).drop p.length)
    else
      c :: replListF p r fuel cs

/-- `strings.Replace(s, p, r, -1)` on character lists. -/
def replList (p r s : Str) : Str := replListF p r s.length s

/-! ## Archive extraction (`extractArchive` / `extractAndWriteFile`)

`filepath.Join` lexically cleans the joined path (Go `filepath.Clean`),
so the computed destination is modelled by `goClean`/`goJoin`.  The Go
closure `extractAndWriteFile` performs **no** path validation: it joins the
entry name onto a destination root and writes.  I/O failures are outside
the model; the model therefore records the written destination path. -/

/-- Split a character list at every occurrence of `sep` (Go `strings.Split`
with a one-character separator; splitting the empty string yields `[""]`). -/
def splitOnChar (sep : Char) : Str → List Str
  | [] => [[]]
  | c :: cs =>
    match splitOnChar sep cs with
    | [] => if c = sep then [[], []] else [[c]]
    | h :: t => if c = sep then [] :: h :: t else (c :: h) :: t

/-- Whether a slash-path is absolute. -/
def isRooted (s : Str) : Bool :=
  match s with
  | c :: _ => c = '/'
  | [] => false

/-- The component stack built by Go `filepath.Clean`: `.` and empty
components vanish, `..` pops a previous component (or is kept / dropped at
the root depending on rootedness). -/
def goCleanStack (rooted : Bool) (comps : List Str) : List Str :=
  (comps.foldl (fun st c =>
    if c = [] ∨ c = ['.'] then st
    else if c = ['.', '.'] then
      match st with
      | [] => if rooted then [] else [c]
      | t :: rest => if t = ['.', '.'] then c :: t :: rest else rest
    else c :: st) []).reverse

/-- Go `filepath.Clean` for slash-separated paths. -/
def goClean (s : Str) : Str :=
  let st := goCleanStack (isRooted s) (splitOnChar '/' s)
  if st = [] then (if isRooted s then ['/'] else ['.'])
  else (if isRooted s then ['/'] else []) ++ List.intercalate ['/'] st

/-- Go `filepath.Join` of two elements (empty elements are skipped, the
result is cleaned). -/
def goJoin (a b : Str) : Str :=
  if a = [] ∧ b = [] then []
  else if a = [] then goClean b
  else if b = [] then goClean a
  else goClean (a ++ '/' :: b)

/-- One zip archive entry: its stored name and whether it is a directory. -/
structure ZipEntry where
  name : Str
  isDir : Bool

/-- The destination path computed by `extractAndWriteFile`: directory
entries go under `metaDest`; the files `media` and `collection.anki2` go
under `metaDest`; every other file goes under `mediaDest`. -/
def extractDest (metaDest mediaDest : Str) (e : ZipEntry) : Str :=
  if e.isDir then goJoin metaDest e.name
  else if e.name = "media".data ∨ e.name = "collection.anki2".data then
    goJoin metaDest e.name
  else goJoin mediaDest e.name

/-- `extractAndWriteFile`: the Go closure opens the entry and writes it to
the computed destination.  There is no rejection branch of any kind — the
only possible failures are I/O errors, which are outside the model — so the
model always succeeds, returning the path that gets written. -/
def extractAndWriteFile (metaDest mediaDest : Str) (e : ZipEntry) :
    Except Str Str :=
  Except.ok (extractDest metaDest mediaDest e)

/-- `extractArchive`: extract each entry in order, aborting on the first
error. -/
def extractArchive (metaDest mediaDest : Str) (entries : List ZipEntry) :
    Except Str (List Str) :=
  entries.mapM (extractAndWriteFile metaDest mediaDest)

/-- Index of the last occurrence of `c`, if any. -/
def lastIdx (c : Char) : Str → Option Nat
  | [] => none
  | x :: xs =>
    match lastIdx c xs with
    | some k => some (k + 1)
    | none => if x = c then some 0 else none

/-- Attempt the greedy match of `(.+)\]` against the text following the
literal `[sound:`.  Returns the capture and the text after the match. -/
def matchSound (cs : Str) : Option (Str × Str) :=
  let run := cs.takeWhile (fun c => c ≠ '\n')
  match lastIdx ']' run with
  | some k => if 1 ≤ k then some (run.take k, cs.drop (k + 1)) else none
  | none => none

/-- The `AUDIO_ELEMENT` replacement template from the source. -/
def AUDIO_ELEMENT : Str :=
  "<audio controls><source src=\"$1\" type=\"audio/3gpp\"><source src=\"$1.\" type=\"audio/ogg\"> Your browser does not support the <code>audio</code> element.</audio>".data

/-- The audio markup produced for capture `cap`: `AUDIO_ELEMENT` with the
template variable `$1` expanded to the capture. -/
def audioElem (cap : Str) : Str := replList "$1".data cap AUDIO_ELEMENT

/-- The literal lead-in of the sound regex. -/
def soundMark : Str := "[sound:".data

/-- Fuelled core of the global sound-tag substitution. -/
def soundRF : Nat → Str → Str
  | 0, s => s
  | _ + 1, [] => []
  | fuel + 1, c :: cs =>
    if soundMark <+: (c :: cs) then
      match matchSound ((c :: cs).drop 7) with
      | some (cap, rest) => audioElem cap ++ soundRF fuel rest
      | none => c :: soundRF fuel cs
    else c :: soundRF fuel cs

/-- `re.ReplaceAllString(s, AUDIO_ELEMENT)` for the sound regex. -/
def soundRewrite (s : Str) : Str := soundRF s.length s

/-- Substring test: does `needle` occur contiguously inside the text? -/
def hasInfix (needle : Str) : Str → Bool
  | [] => decide (needle = [])
  | c :: cs => decide (needle <+: (c :: cs)) || hasInfix needle cs

/-! ## Token view of template format strings

To reason about `strings.Replace` with the placeholder patterns
`{{name}}`, `{{type:name}}` and `{{FrontSide}}`, well-formed format
strings are viewed as token lists: alternating brace-free literal
segments and `{{interior}}` placeholders with brace-free interiors.  In
the rendering of such a token list, every occurrence of a pattern
`{{a}}` (with brace-free `a`) starts exactly at a placeholder token whose
interior is `a`, which makes `replList` computable token by token. -/

/-- A string containing neither `{` nor `}`. -/
def BraceFree (s : Str) : Prop := ∀ c ∈ s, c ≠ '{' ∧ c ≠ '}'

instance (s : Str) : Decidable (BraceFree s) := List.decidableBAll _ s

/-- The pattern `{{n}}`. -/
def wrap (n : Str) : Str := '{' :: '{' :: (n ++ ['}', '}'])

/-- A format-string token: a literal segment or a `{{name}}` placeholder. -/
inductive Tok where
  | lit : Str → Tok
  | pat : Str → Tok
deriving DecidableEq

/-- Rendering of one token back into a string. -/
def renderTok : Tok → Str
  | .lit s => s
  | .pat n => wrap n

/-- Rendering of a token list. -/
def render (ts : List Tok) : Str := ts.flatMap renderTok

/-- Well-formedness of a token: its payload is brace-free. -/
def wfTok : Tok → Prop
  | .lit s => BraceFree s
  | .pat n => BraceFree n

/-- Well-formedness of a token list. -/
def WfToks (ts : List Tok) : Prop := ∀ t ∈ ts, wfTok t

/-! ## The card-resolution engine (`makeQueries`)

The SQL retrieval and the JSON/`strconv.Atoi` decoding of the collection
blobs are external collaborators (sqlite driver, `encoding/json`); the
model takes the retrieved rows and the decoded model/deck tables as typed
inputs, exactly in the shape the Go code builds them.  Go map accesses
return the zero value on a miss (`0`, `""`, `nil` map, zero `[2]string`),
modelled by `Option.getD`.  A Go map built by iterating bindings is
modelled as a last-binding-wins association list (`goMapGet`); the
per-card iteration over the field-replacement map, whose order Go leaves
unspecified, is modelled by iterating the binding list in the given
order — the order-independence claims quantify over permutations of that
list (field names within one model are assumed distinct, as they are keys
of one JSON object). -/

/-- Ways `makeQueries` can terminate abnormally.  `panicOOB` models the
Go runtime panic raised by the unguarded slice access `fields[index]`;
the other constructors are the returned errors. -/
inductive Err where
  | notOneCollection : Nat → Err
  | noCards : Err
  | multipleDecks : Err
  | panicOOB : Err
deriving DecidableEq

instance {ε α : Type} [DecidableEq ε] [DecidableEq α] : DecidableEq (Except ε α) := fun a b =>
  match a, b with
  | .error e, .error e' =>
    if h : e = e' then .isTrue (by rw [h]) else
      .isFalse (fun hc => by cases hc; exact h rfl)
  | .error _, .ok _ => .isFalse (fun hc => by cases hc)
  | .ok _, .error _ => .isFalse (fun hc => by cases hc)
  | .ok v, .ok v' =>
    if h : v = v' then .isTrue (by rw [h]) else
      .isFalse (fun hc => by cases hc; exact h rfl)

/-- The apostrophe character. -/
def apos : Char := Char.ofNat 39

/-- The fixed `input` markup substituted for `{{type:fieldname}}`. -/
def inputStr : Str :=
  "<input type=".data ++ [apos] ++ "text".data ++ [apos] ++ " placeholder=".data ++
    [apos] ++ "solution".data ++ [apos] ++ " class=".data ++ [apos] ++ "type".data ++
    [apos] ++ " />".data

/-- The pattern `"{{" + fieldname + "}}"`. -/
def fieldPat (n : Str) : Str := wrap n

/-- The pattern `"{{type:" + fieldname + "}}"`. -/
def typePat (n : Str) : Str := wrap ("type:".data ++ n)

/-- The pattern `"{{FrontSide}}"`. -/
def frontSidePat : Str := wrap "FrontSide".data

/-- The inner loop of `makeQueries` over the `(fieldname, ord)` bindings of
the card's model: per binding, replace `{{fieldname}}` by the field value in
both formats, replace `{{type:fieldname}}` by the fixed input markup in both
formats, then replace `{{FrontSide}}` in the answer format by the *current*
question format.  The Go slice access `fields[index]` panics when the
ordinal is out of bounds. -/
def fieldLoop (fields : List Str) : List (Str × Int) → Str × Str → Except Err (Str × Str)
  | [], fmt => Except.ok fmt
  | (n, idx) :: rest, fmt =>
    if 0 ≤ idx ∧ idx.toNat < fields.length then
      let v := fields.getD idx.toNat []
      let f0a := replList (fieldPat n) v fmt.1
      let f1a := replList (fieldPat n) v fmt.2
      let f0b := replList (typePat n) inputStr f0a
      let f1b := replList (typePat n) inputStr f1a
      let f1c := replList frontSidePat f0b f1b
      fieldLoop fields rest (f0b, f1c)
    else Except.error Err.panicOOB

/-- A model decoded from the collection's `models` JSON blob: stylesheet,
`(field name, ordinal)` bindings, and `(ordinal, (qfmt, afmt))` templates. -/
structure Model where
  css : Str
  flds : List (Str × Int)
  tmpls : List (Int × (Str × Str))
deriving DecidableEq

/-- A `notes` row (the columns the engine reads). -/
structure Note where
  id : Int
  mid : Int
  flds : Str
deriving DecidableEq

/-- A `cards` row (the columns the engine reads). -/
structure Card where
  nid : Int
  did : Int
  ord : Int
deriving DecidableEq

/-- A `col` row with its `models` and `decks` JSON blobs already decoded
into binding lists keyed by integer id. -/
structure Collection where
  models : List (Int × Model)
  decks : List (Int × Str)
deriving DecidableEq

/-- Go map lookup for a map built by inserting the bindings in order
(later bindings overwrite earlier ones). -/
def goMapGet {β : Type} (l : List (Int × β)) (k : Int) : Option β :=
  l.foldl (fun acc p => if p.1 = k then some p.2 else acc) none

/-- The unit-separator character `\x1f` joining note field values. -/
def unitSep : Char := Char.ofNat 31

/-- The per-card loop of `makeQueries`: resolve each card against the
lookup tables, tracking the previously seen deck id (initially `-1`) and
failing with the multiple-decks error on a deck change when no title was
supplied; sound tags are rewritten after the substitutions, and the
resolved `(css, front, back)` triple is appended. -/
def cardLoop (frsOf : Int → List (Str × Int)) (tmplOf : Int → Int → Str × Str)
    (cssOf : Int → Str) (nid2mid : Int → Int) (nid2flds : Int → Str)
    (dataTitle : Str) :
    List Card → Int → List (Str × Str × Str) → Except Err (List (Str × Str × Str) × Int)
  | [], deckId, acc => Except.ok (acc, deckId)
  | c :: rest, deckId, acc =>
    let mid := nid2mid c.nid
    let fields := splitOnChar unitSep (nid2flds c.nid)
    match fieldLoop fields (frsOf mid) (tmplOf mid c.ord) with
    | .error e => Except.error e
    | .ok fmt =>
      if deckId ≠ -1 ∧ deckId ≠ c.did ∧ dataTitle = [] then Except.error Err.multipleDecks
      else
        cardLoop frsOf tmplOf cssOf nid2mid nid2flds dataTitle rest c.did
          (acc ++ [(cssOf mid, soundRewrite fmt.1, soundRewrite fmt.2)])

/-- `nid2mid[nid]` (missing key gives the Go zero value `0`). -/
def nid2mid (notes : List Note) (nid : Int) : Int :=
  (goMapGet (notes.map fun n => (n.id, n.mid)) nid).getD 0

/-- `nid2flds[nid]` (missing key gives the Go zero value `""`). -/
def nid2flds (notes : List Note) (nid : Int) : Str :=
  (goMapGet (notes.map fun n => (n.id, n.flds)) nid).getD []

/-- `fieldReplacements[mid]` (missing key gives the empty nil map). -/
def frsOf (col : Collection) (mid : Int) : List (Str × Int) :=
  match goMapGet col.models mid with
  | some m => m.flds
  | none => []

/-- `templates[mid][ord]` (missing keys give the zero value `["",""]`). -/
def tmplOf (col : Collection) (mid ord : Int) : Str × Str :=
  match goMapGet col.models mid with
  | some m => (goMapGet m.tmpls ord).getD ([], [])
  | none => ([], [])

/-- `css[mid]` (missing key gives the zero value `""`). -/
def cssOf (col : Collection) (mid : Int) : Str :=
  match goMapGet col.models mid with
  | some m => m.css
  | none => []

/-- `makeQueries` (the variant with sound rewriting): check the row
counts, build the lookup tables, resolve every card, and return the
resolved triples together with the final title — which is *always* the
display name of the last-seen deck id (`data.Title = decksInfo[deckId]`
runs unconditionally after the loop). -/
def makeQueries (cols : List Collection) (notes : List Note) (cards : List Card)
    (confTitle : Str) : Except Err (List (Str × Str × Str) × Str) :=
  if cols.length ≠ 1 then Except.error (Err.notOneCollection cols.length)
  else if cards = [] then Except.error Err.noCards
  else
    match cols with
    | [col] =>
      let dataTitle := if confTitle = [] then [] else confTitle
      match cardLoop (frsOf col) (tmplOf col) (cssOf col) (nid2mid notes)
          (nid2flds notes) dataTitle cards (-1) [] with
      | .error e => Except.error e
      | .ok (out, deckId) => Except.ok (out, (goMapGet col.decks deckId).getD [])
    | _ => Except.error (Err.notOneCollection cols.length)

/-! ## Token-level reading of the per-card substitution loop -/

/-- Replace every `pat n` token by the token list `xts`. -/
def splice (n : Str) (xts ts : List Tok) : List Tok :=
  ts.flatMap fun t => if t = Tok.pat n then xts else [t]

/-- The token-level reading of one iteration of the Go field loop. -/
def stepT (fields : List Str) (f : Str × Int) (st : List Tok × List Tok) :
    List Tok × List Tok :=
  let v := fields.getD f.2.toNat []
  let t0a := splice f.1 [Tok.lit v] st.1
  let t1a := splice f.1 [Tok.lit v] st.2
  let t0b := splice ("type:".data ++ f.1) [Tok.lit inputStr] t0a
  let t1b := splice ("type:".data ++ f.1) [Tok.lit inputStr] t1a
  (t0b, splice "FrontSide".data t0b t1b)

/-- The token-level reading of the whole field loop. -/
def loopT (fields : List Str) (L : List (Str × Int)) (st : List Tok × List Tok) :
    List Tok × List Tok :=
  L.foldl (fun st f => stepT fields f st) st

/-! ## Simultaneous substitution and the canonical form of the loop -/

/-- Substitution of a single token by a single token. -/
def stok (n : Str) (x : Tok) (t : Tok) : Tok := if t = Tok.pat n then x else t

/-- The simultaneous substitution determined by the binding list: a
`{{name}}` placeholder of a declared field becomes its value, a
`{{type:name}}` placeholder becomes the input markup, everything else is
untouched. -/
def subAllTok (fields : List Str) (L : List (Str × Int)) : Tok → Tok
  | .lit s => .lit s
  | .pat b =>
    match L.find? (fun f => f.1 = b) with
    | some f => .lit (fields.getD f.2.toNat [])
    | none =>
      match L.find? (fun f => "type:".data ++ f.1 = b) with
      | some _ => .lit inputStr
      | none => .pat b

/-- Simultaneous substitution over a token list. -/
def subAll (fields : List Str) (L : List (Str × Int)) (ts : List Tok) : List Tok :=
  ts.map (subAllTok fields L)

/-- The conditions on the declared `(field name, ordinal)` bindings under
which the loop has a canonical description: names are pairwise distinct
keys, brace-free, colon-free, and none of them is `FrontSide`. -/
def GoodNames (L : List (Str × Int)) : Prop :=
  (L.map Prod.fst).Nodup ∧
  ∀ f ∈ L, BraceFree f.1 ∧ ':' ∉ f.1 ∧ f.1 ≠ "FrontSide".data

instance (L : List (Str × Int)) : Decidable (GoodNames L) := by
  unfold GoodNames
  infer_instance

/-! ## The specification reading of per-card substitution -/

instance (t : Tok) : Decidable (wfTok t) := by
  cases t <;> (dsimp only [wfTok]; infer_instance)

instance (ts : List Tok) : Decidable (WfToks ts) := List.decidableBAll _ ts

/-- One field's substitutions (field value, then type markup) applied to
one format string. -/
def specSubStep (fields : List Str) (s : Str) (f : Str × Int) : Str :=
  replList (typePat f.1) inputStr (replList (fieldPat f.1) (fields.getD f.2.toNat []) s)

/-- Modelled from the spec: "for every (field name → ordinal) pair declared
in the model, perform placeholder substitution on both format strings …
after field and type substitution, replace every `{{FrontSide}}` occurrence
in the answer format with the (already-substituted) question format — …
this replacement happens last per template, after all field/type
substitutions for that card."  So: fold the per-field substitutions over
both formats, then replace `{{FrontSide}}` once, at the end, by the fully
substituted question format. -/
def specResolve (fields : List Str) (L : List (Str × Int)) (q a : Str) : Str × Str :=
  (L.foldl (specSubStep fields) q,
   replList frontSidePat (L.foldl (specSubStep fields) q) (L.foldl (specSubStep fields) a))

/-- The token-level reading of one field's two substitutions. -/
def mTok (fields : List Str) (f : Str × Int) (ts : List Tok) : List Tok :=
  splice ("type:".data ++ f.1) [Tok.lit inputStr]
    (splice f.1 [Tok.lit (fields.getD f.2.toNat [])] ts)

/-- All field ordinals declared for the card's model are within bounds of
the card's split note fields (the precondition under which the Go slice
access `fields[index]` cannot panic). -/
def cardInBounds (col : Collection) (notes : List Note) (c : Card) : Prop :=
  ∀ f ∈ frsOf col (nid2mid notes c.nid),
    0 ≤ f.2 ∧ f.2.toNat < (splitOnChar unitSep (nid2flds notes c.nid)).length

instance (col : Collection) (notes : List Note) (c : Card) :
    Decidable (cardInBounds col notes c) :=
  List.decidableBAll _ _

/-! ## Theorems -/

theorem replListF_fuel (p r : Str) :
    ∀ (f g : Nat) (s : Str), s.length ≤ f → s.length ≤ g →
      replListF p r f s = replListF p r g s := by
  intro f
  induction f with
  | zero =>
    intro g s hf _
    have : s = [] := List.eq_nil_of_length_eq_zero (Nat.le_zero.mp hf)
    subst this
    cases g <;> rfl
  | succ f ih =>
    intro g s hf hg
    cases s with
    | nil => cases g <;> rfl
    | cons c cs =>
      cases g with
      | zero => exact absurd hg (by simp)
      | succ g =>
        simp only [replListF]
        by_cases h : p ≠ [] ∧ p <+: (c :: cs)
        · rw [if_pos h, if_pos h]
          have hplen : 1 ≤ p.length := by
            have := h.1
            cases p with
            | nil => simp at this
            | cons _ _ => simp
          have hd : ((c :: cs).drop p.length).length ≤ cs.length := by
            simp only [List.length_drop, List.length_cons]
            omega
          have h1 : ((c :: cs).drop p.length).length ≤ f := by
            have : cs.length ≤ f := by simpa using Nat.succ_le_succ_iff.mp hf
            omega
          have h2 : ((c :: cs).drop p.length).length ≤ g := by
            have : cs.length ≤ g := by simpa using Nat.succ_le_succ_iff.mp hg
            omega
          rw [ih g _ h1 h2]
        · rw [if_neg h, if_neg h]
          have h1 : cs.length ≤ f := by simpa using Nat.succ_le_succ_iff.mp hf
          have h2 : cs.length ≤ g := by simpa using Nat.succ_le_succ_iff.mp hg
          rw [ih g _ h1 h2]

theorem replList_nil (p r : Str) : replList p r [] = [] := rfl

theorem replList_pos {p : Str} (r : Str) {c : Char} {cs : Str}
    (hp : p ≠ []) (h : p <+: (c :: cs)) :
    replList p r (c :: cs) = r ++ replList p r ((c :: cs).drop p.length) := by
  have hd : ((c :: cs).drop p.length).length ≤ cs.length := by
    simp only [List.length_drop, List.length_cons]
    have : 1 ≤ p.length := by
      cases p with
      | nil => simp at hp
      | cons _ _ => simp
    omega
  show replListF p r (cs.length + 1) (c :: cs) = _
  simp only [replListF, if_pos (And.intro hp h)]
  rw [replListF_fuel p r cs.length ((c :: cs).drop p.length).length _ hd le_rfl]
  rfl

theorem replList_neg {p : Str} (r : Str) {c : Char} {cs : Str}
    (h : ¬(p ≠ [] ∧ p <+: (c :: cs))) :
    replList p r (c :: cs) = c :: replList p r cs := by
  show replListF p r (cs.length + 1) (c :: cs) = _
  simp only [replListF, if_neg h]
  rfl

/-- C1: `extractArchive` performs no traversal check whatsoever.  Extracting
an archive containing the entries `../../etc/passwd` and `/etc/passwd` into
media destination root `out` *succeeds*: the first entry is written to
`../etc/passwd`, a path **outside** the destination root (it begins with a
parent-directory segment and is not under `out`), and the second is silently
relocated to `out/etc/passwd` instead of being rejected.  The extraction
does not fail with a traversal error in either case. -/
theorem extractArchive_writes_outside_root :
    extractArchive "tmp".data "out".data
        [⟨"../../etc/passwd".data, false⟩, ⟨"/etc/passwd".data, false⟩] =
      Except.ok ["../etc/passwd".data, "out/etc/passwd".data] ∧
    List.isPrefixOf "out".data "../etc/passwd".data = false ∧
    List.isPrefixOf "..".data "../etc/passwd".data = true :=
  ⟨rfl, rfl, rfl⟩

/-- C2: the second-resolution codec round-trips every integer, but the
millisecond-resolution codec does not: decoding the stored integer `1000`
and re-encoding yields `1000000000` (the `Scan` treats `msecs % 1000` as
nanoseconds and `Value` returns `UnixNano`), so decode-then-encode is not
the identity. -/
theorem millis_roundtrip_broken :
    (∀ t : Int, SecondsTime.value (SecondsTime.scanInt t) = t) ∧
    MilliSecondsTime.value (MilliSecondsTime.scanInt 1000) = 1000000000 ∧
    MilliSecondsTime.value (MilliSecondsTime.scanInt 1000) ≠ 1000 := by
  refine ⟨?_, by decide, by decide⟩
  intro t
  show Int.fdiv (t * 1000000000 + 0) 1000000000 = t
  rw [add_zero]
  exact Int.mul_fdiv_cancel t (by decide)

/-! ## Sound-tag rewriting (`regexp.MustCompile` + `ReplaceAllString`)

The variant of `makeQueries` that rewrites sound references applies the
regular expression `\[sound:(.+)\]` globally to each side.  `.` does not
match a newline and `.+` is greedy, so a match starting at some position
consists of the literal `[sound:`, then the longest newline-free capture
that is followed by `]` (i.e. the capture extends to the **last** `]` of
the newline-free run, and must be non-empty).  `ReplaceAllString` scans
left to right without rescanning replacements, expanding `$1` in the
replacement template to the capture. -/

theorem takeWhile_length_le (p : Char → Bool) (l : Str) :
    (l.takeWhile p).length ≤ l.length := by
  induction l with
  | nil => simp
  | cons c cs ih =>
    rw [List.takeWhile_cons]
    by_cases h : p c = true
    · rw [if_pos h]
      simpa using ih
    · rw [if_neg h]
      simp

theorem lastIdx_lt {c : Char} : ∀ {l : Str} {k : Nat}, lastIdx c l = some k → k < l.length := by
  intro l
  induction l with
  | nil => intro k h; simp [lastIdx] at h
  | cons x xs ih =>
    intro k h
    simp only [lastIdx] at h
    cases hx : lastIdx c xs with
    | some j =>
      rw [hx] at h
      cases h
      have := ih hx
      simpa using Nat.succ_lt_succ this
    | none =>
      rw [hx] at h
      by_cases hxc : x = c
      · rw [if_pos hxc] at h
        cases h
        simp
      · rw [if_neg hxc] at h
        cases h

theorem matchSound_rest {cs cap rest : Str} (h : matchSound cs = some (cap, rest)) :
    rest.length + 2 ≤ cs.length := by
  simp only [matchSound] at h
  split at h
  · rename_i k hk
    split at h
    · rename_i h1
      cases h
      have hklt := lastIdx_lt hk
      have hrun := takeWhile_length_le (fun c => decide (c ≠ '\n')) cs
      simp only [List.length_drop]
      omega
    · cases h
  · cases h

theorem soundRF_fuel :
    ∀ (f g : Nat) (s : Str), s.length ≤ f → s.length ≤ g →
      soundRF f s = soundRF g s := by
  intro f
  induction f with
  | zero =>
    intro g s hf _
    have : s = [] := List.eq_nil_of_length_eq_zero (Nat.le_zero.mp hf)
    subst this
    cases g <;> rfl
  | succ f ih =>
    intro g s hf hg
    cases s with
    | nil => cases g <;> rfl
    | cons c cs =>
      cases g with
      | zero => exact absurd hg (by simp)
      | succ g =>
        have hcf : cs.length ≤ f := by simpa using Nat.succ_le_succ_iff.mp hf
        have hcg : cs.length ≤ g := by simpa using Nat.succ_le_succ_iff.mp hg
        simp only [soundRF]
        by_cases hpre : soundMark <+: (c :: cs)
        · rw [if_pos hpre, if_pos hpre]
          cases hm : matchSound ((c :: cs).drop 7) with
          | some pr =>
            obtain ⟨cap, rest⟩ := pr
            have hr : rest.length + 2 ≤ ((c :: cs).drop 7).length := matchSound_rest hm
            simp only [List.length_drop, List.length_cons] at hr
            dsimp only
            rw [ih g rest (by omega) (by omega)]
          | none =>
            dsimp only
            rw [ih g cs hcf hcg]
        · rw [if_neg hpre, if_neg hpre, ih g cs hcf hcg]

theorem soundRewrite_nil : soundRewrite [] = [] := rfl

theorem soundRewrite_match {c : Char} {cs cap rest : Str}
    (hpre : soundMark <+: (c :: cs)) (hm : matchSound ((c :: cs).drop 7) = some (cap, rest)) :
    soundRewrite (c :: cs) = audioElem cap ++ soundRewrite rest := by
  show soundRF (cs.length + 1) (c :: cs) = _
  simp only [soundRF, if_pos hpre, hm]
  have hr : rest.length + 2 ≤ ((c :: cs).drop 7).length := matchSound_rest hm
  simp only [List.length_drop, List.length_cons] at hr
  rw [soundRF_fuel cs.length rest.length rest (by omega) le_rfl]
  rfl

theorem soundRewrite_nomatch {c : Char} {cs : Str}
    (hpre : soundMark <+: (c :: cs)) (hm : matchSound ((c :: cs).drop 7) = none) :
    soundRewrite (c :: cs) = c :: soundRewrite cs := by
  show soundRF (cs.length + 1) (c :: cs) = _
  simp only [soundRF, if_pos hpre, hm]
  rfl

theorem soundRewrite_skip {c : Char} {cs : Str}
    (hpre : ¬ soundMark <+: (c :: cs)) :
    soundRewrite (c :: cs) = c :: soundRewrite cs := by
  show soundRF (cs.length + 1) (c :: cs) = _
  simp only [soundRF, if_neg hpre]
  rfl

theorem render_nil : render [] = [] := rfl

theorem render_cons (t : Tok) (ts : List Tok) :
    render (t :: ts) = renderTok t ++ render ts := by
  simp [render]

theorem render_append (a b : List Tok) :
    render (a ++ b) = render a ++ render b := by
  simp [render]

theorem wrap_ne_nil (n : Str) : wrap n ≠ [] := by simp [wrap]

/-- Scanning for `{{a}}` walks through a brace-free segment unchanged. -/
theorem replList_skip_br (r a : Str) :
    ∀ (x y : Str), BraceFree x →
      replList (wrap a) r (x ++ y) = x ++ replList (wrap a) r y := by
  intro x
  induction x with
  | nil => intro y _; simp
  | cons c cs ih =>
    intro y hx
    have hno : ¬(wrap a ≠ [] ∧ wrap a <+: (c :: (cs ++ y))) := by
      rintro ⟨-, hpre⟩
      simp only [wrap] at hpre
      rcases List.cons_prefix_cons.mp hpre with ⟨h1, -⟩
      exact (hx c (List.mem_cons_self c cs)).1 h1.symm
    rw [List.cons_append, replList_neg r hno,
      ih y fun c' hc' => hx c' (List.mem_cons_of_mem c hc')]
    rfl

/-- The closing part of `{{a}}` cannot begin a match inside
`b ++ "}}" ++ y` when `a ≠ b` and both interiors are brace-free. -/
theorem close_not_pre :
    ∀ (a b : Str), BraceFree a → BraceFree b → a ≠ b → ∀ (y : Str),
      ¬ (a ++ ['}', '}']) <+: (b ++ '}' :: '}' :: y) := by
  intro a
  induction a with
  | nil =>
    intro b _ hb hab y hpre
    cases b with
    | nil => exact hab rfl
    | cons d bs =>
      rw [List.nil_append, List.cons_append] at hpre
      rcases List.cons_prefix_cons.mp hpre with ⟨h1, -⟩
      exact (hb d (List.mem_cons_self d bs)).2 h1.symm
  | cons c as ih =>
    intro b ha hb hab y hpre
    cases b with
    | nil =>
      rw [List.cons_append, List.nil_append] at hpre
      rcases List.cons_prefix_cons.mp hpre with ⟨h1, -⟩
      exact (ha c (List.mem_cons_self c as)).2 h1
    | cons d bs =>
      rw [List.cons_append, List.cons_append] at hpre
      rcases List.cons_prefix_cons.mp hpre with ⟨h1, h2⟩
      by_cases hd : as = bs
      · exact hab (by rw [h1, hd])
      · exact ih bs (fun c' hc' => ha c' (List.mem_cons_of_mem c hc'))
          (fun c' hc' => hb c' (List.mem_cons_of_mem d hc')) hd y h2

/-- A match of the whole pattern at the head of the string. -/
theorem replList_head (r : Str) {p : Str} (hp : p ≠ []) (y : Str) :
    replList p r (p ++ y) = r ++ replList p r y := by
  cases p with
  | nil => exact absurd rfl hp
  | cons c cs =>
    rw [List.cons_append, replList_pos r hp (by rw [← List.cons_append]; exact List.prefix_append _ _)]
    congr 1
    rw [← List.cons_append]
    congr 1
    exact List.drop_left (c :: cs) y

/-- Scanning for `{{a}}` walks through a rendered placeholder `{{b}}`
with `b ≠ a` unchanged. -/
theorem replList_skip_pat (r : Str) {a b : Str} (ha : BraceFree a)
    (hb : BraceFree b) (hab : a ≠ b) (y : Str) :
    replList (wrap a) r (wrap b ++ y) = wrap b ++ replList (wrap a) r y := by
  have hrw : wrap b ++ y = '{' :: ('{' :: (b ++ ('}' :: ('}' :: y)))) := by
    simp [wrap]
  have h1 : ¬(wrap a ≠ [] ∧ wrap a <+: ('{' :: ('{' :: (b ++ ('}' :: ('}' :: y)))))) := by
    rintro ⟨-, hpre⟩
    simp only [wrap] at hpre
    rcases List.cons_prefix_cons.mp hpre with ⟨-, hpre2⟩
    rcases List.cons_prefix_cons.mp hpre2 with ⟨-, hpre3⟩
    exact close_not_pre a b ha hb hab y (by simpa using hpre3)
  have h2 : ¬(wrap a ≠ [] ∧ wrap a <+: ('{' :: (b ++ ('}' :: ('}' :: y))))) := by
    rintro ⟨-, hpre⟩
    simp only [wrap] at hpre
    rcases List.cons_prefix_cons.mp hpre with ⟨-, hpre2⟩
    cases b with
    | nil =>
      rw [List.nil_append] at hpre2
      rcases List.cons_prefix_cons.mp hpre2 with ⟨h3, -⟩
      exact absurd h3 (by decide)
    | cons d bs =>
      rw [List.cons_append] at hpre2
      rcases List.cons_prefix_cons.mp hpre2 with ⟨h3, -⟩
      exact (hb d (List.mem_cons_self d bs)).1 h3.symm
  have h3 : ∀ (z : Str), ¬(wrap a ≠ [] ∧ wrap a <+: ('}' :: z)) := by
    rintro z ⟨-, hpre⟩
    simp only [wrap] at hpre
    rcases List.cons_prefix_cons.mp hpre with ⟨h4, -⟩
    exact absurd h4 (by decide)
  rw [hrw, replList_neg r h1, replList_neg r h2,
    replList_skip_br r a b ('}' :: ('}' :: y)) hb,
    replList_neg r (h3 _), replList_neg r (h3 _)]
  simp [wrap]

/-- Replacing `{{a}}` by the rendering of `xts` inside the rendering of a
well-formed token list substitutes exactly the `pat a` tokens. -/
theorem replList_render {a : Str} (ha : BraceFree a) (xts : List Tok) :
    ∀ ts : List Tok, WfToks ts →
      replList (wrap a) (render xts) (render ts) =
        render (ts.flatMap fun t => if t = Tok.pat a then xts else [t]) := by
  intro ts
  induction ts with
  | nil => intro _; rfl
  | cons t rest ih =>
    intro hwf
    have hwfr : WfToks rest := fun t' ht' => hwf t' (List.mem_cons_of_mem t ht')
    cases t with
    | lit s =>
      rw [render_cons]
      show replList (wrap a) (render xts) (s ++ render rest) = _
      rw [replList_skip_br (render xts) a s (render rest) (hwf (.lit s) (List.mem_cons_self _ _)),
        ih hwfr, List.flatMap_cons]
      have h5 : (if Tok.lit s = Tok.pat a then xts else [Tok.lit s]) = [Tok.lit s] := by simp
      rw [h5]
      show _ = render ([Tok.lit s] ++ _)
      rw [render_append]
      simp [render, renderTok]
    | pat b =>
      by_cases hba : b = a
      · subst hba
        rw [render_cons]
        show replList (wrap b) (render xts) (wrap b ++ render rest) = _
        rw [replList_head (render xts) (wrap_ne_nil b) (render rest), ih hwfr, List.flatMap_cons]
        have h5 : (if Tok.pat b = Tok.pat b then xts else [Tok.pat b]) = xts := by simp
        rw [h5]
        show _ = render (xts ++ _)
        rw [render_append]
      · rw [render_cons]
        show replList (wrap a) (render xts) (wrap b ++ render rest) = _
        rw [replList_skip_pat (render xts) ha
          (hwf (.pat b) (List.mem_cons_self _ _)) (fun h => hba h.symm) (render rest),
          ih hwfr, List.flatMap_cons]
        have h5 : (if Tok.pat b = Tok.pat a then xts else [Tok.pat b]) = [Tok.pat b] := by
          simp [hba]
        rw [h5]
        show _ = render ([Tok.pat b] ++ _)
        rw [render_append]
        simp [render, renderTok]

/-- Substituting for a placeholder that does not occur is the identity. -/
theorem bind_keep {n : Str} {xts : List Tok} :
    ∀ {ts : List Tok}, Tok.pat n ∉ ts →
      (ts.flatMap fun t => if t = Tok.pat n then xts else [t]) = ts := by
  intro ts
  induction ts with
  | nil => intro _; rfl
  | cons t rest ih =>
    intro hn
    rw [List.flatMap_cons, ih fun h => hn (List.mem_cons_of_mem t h)]
    have h5 : (if t = Tok.pat n then xts else [t]) = [t] := by
      rw [if_neg]
      intro h
      exact hn (h ▸ List.mem_cons_self t rest)
    rw [h5]
    rfl

/-- Substitution preserves well-formedness when the substituted tokens are
well-formed. -/
theorem WfToks_bind {xts : List Tok} (hx : WfToks xts) {a : Str} :
    ∀ {ts : List Tok}, WfToks ts →
      WfToks (ts.flatMap fun t => if t = Tok.pat a then xts else [t]) := by
  intro ts hwf t' ht'
  rcases List.mem_flatMap.mp ht' with ⟨t, ht, hmem⟩
  by_cases h : t = Tok.pat a
  · rw [if_pos h] at hmem
    exact hx t' hmem
  · rw [if_neg h] at hmem
    rcases List.mem_singleton.mp hmem with rfl
    exact hwf t' ht

theorem replList_render_gen {a : Str} (ha : BraceFree a) (xts ts : List Tok)
    (hts : WfToks ts) :
    replList (wrap a) (render xts) (render ts) = render (splice a xts ts) :=
  replList_render ha xts ts hts

theorem replList_render_lit {a : Str} (ha : BraceFree a) (v : Str) (ts : List Tok)
    (hts : WfToks ts) :
    replList (wrap a) v (render ts) = render (splice a [Tok.lit v] ts) := by
  have h := replList_render ha [Tok.lit v] ts hts
  have hv : render [Tok.lit v] = v := by simp [render, renderTok]
  rw [hv] at h
  exact h

theorem WfToks_splice {xts : List Tok} (hx : WfToks xts) {a : Str}
    {ts : List Tok} (hts : WfToks ts) : WfToks (splice a xts ts) :=
  WfToks_bind hx hts

theorem splice_keep {n : Str} {xts ts : List Tok} (h : Tok.pat n ∉ ts) :
    splice n xts ts = ts :=
  bind_keep h

/-- Splicing in literal tokens never introduces a placeholder token. -/
theorem pat_notMem_splice_lit {m n : Str} {v : Str} {ts : List Tok}
    (h : Tok.pat m ∉ ts) : Tok.pat m ∉ splice n [Tok.lit v] ts := by
  intro hmem
  rcases List.mem_flatMap.mp hmem with ⟨t, ht, hin⟩
  by_cases he : t = Tok.pat n
  · rw [if_pos he] at hin
    rcases List.mem_singleton.mp hin with h'
    exact Tok.noConfusion h'
  · rw [if_neg he] at hin
    rcases List.mem_singleton.mp hin with rfl
    exact h ht

/-- A splice whose payload has no `pat m` token introduces none. -/
theorem pat_notMem_splice {m n : Str} {xts ts : List Tok}
    (hx : Tok.pat m ∉ xts) (h : Tok.pat m ∉ ts) : Tok.pat m ∉ splice n xts ts := by
  intro hmem
  rcases List.mem_flatMap.mp hmem with ⟨t, ht, hin⟩
  by_cases he : t = Tok.pat n
  · rw [if_pos he] at hin
    exact hx hin
  · rw [if_neg he] at hin
    rcases List.mem_singleton.mp hin with rfl
    exact h ht

theorem braceFree_append {a b : Str} (ha : BraceFree a) (hb : BraceFree b) :
    BraceFree (a ++ b) := by
  intro c hc
  rcases List.mem_append.mp hc with h | h
  · exact ha c h
  · exact hb c h

/-- On well-formed token renderings with brace-free field values and
in-bounds ordinals, the Go field loop never panics and acts exactly as the
token-level loop. -/
theorem fieldLoop_render (fields : List Str) (hv : ∀ s ∈ fields, BraceFree s) :
    ∀ (L : List (Str × Int)) (t0 t1 : List Tok), WfToks t0 → WfToks t1 →
      (∀ f ∈ L, BraceFree f.1 ∧ 0 ≤ f.2 ∧ f.2.toNat < fields.length) →
      fieldLoop fields L (render t0, render t1) =
        Except.ok (render (loopT fields L (t0, t1)).1, render (loopT fields L (t0, t1)).2) := by
  intro L
  induction L with
  | nil => intro t0 t1 _ _ _; rfl
  | cons f rest ih =>
    intro t0 t1 h0 h1 hL
    obtain ⟨n, idx⟩ := f
    obtain ⟨hbf, hnn, hidx⟩ := hL (n, idx) (List.mem_cons_self _ rest)
    have hbv : BraceFree (fields.getD idx.toNat []) := by
      rw [List.getD_eq_getElem fields [] hidx]
      exact hv _ (List.getElem_mem hidx)
    have hbt : BraceFree ("type:".data ++ n) :=
      braceFree_append (by decide) hbf
    have hbFS : BraceFree "FrontSide".data := by decide
    have hbin : BraceFree inputStr := by decide
    -- well-formedness of the intermediate token lists
    have w0a : WfToks (splice n [Tok.lit (fields.getD idx.toNat [])] t0) :=
      WfToks_splice (by intro t ht; rcases List.mem_singleton.mp ht with rfl; exact hbv) h0
    have w1a : WfToks (splice n [Tok.lit (fields.getD idx.toNat [])] t1) :=
      WfToks_splice (by intro t ht; rcases List.mem_singleton.mp ht with rfl; exact hbv) h1
    have w0b : WfToks (splice ("type:".data ++ n) [Tok.lit inputStr]
        (splice n [Tok.lit (fields.getD idx.toNat [])] t0)) :=
      WfToks_splice (by intro t ht; rcases List.mem_singleton.mp ht with rfl; exact hbin) w0a
    have w1b : WfToks (splice ("type:".data ++ n) [Tok.lit inputStr]
        (splice n [Tok.lit (fields.getD idx.toNat [])] t1)) :=
      WfToks_splice (by intro t ht; rcases List.mem_singleton.mp ht with rfl; exact hbin) w1a
    have w1c : WfToks (splice "FrontSide".data
        (splice ("type:".data ++ n) [Tok.lit inputStr]
          (splice n [Tok.lit (fields.getD idx.toNat [])] t0))
        (splice ("type:".data ++ n) [Tok.lit inputStr]
          (splice n [Tok.lit (fields.getD idx.toNat [])] t1))) :=
      WfToks_splice w0b w1b
    show fieldLoop fields ((n, idx) :: rest) (render t0, render t1) = _
    rw [fieldLoop, if_pos (And.intro hnn hidx)]
    dsimp only [fieldPat, typePat, frontSidePat]
    rw [replList_render_lit hbf _ t0 h0, replList_render_lit hbf _ t1 h1,
      replList_render_lit hbt inputStr _ w0a, replList_render_lit hbt inputStr _ w1a,
      replList_render_gen hbFS _ _ w1b]
    rw [ih _ _ w0b w1c fun g hg => hL g (List.mem_cons_of_mem _ hg)]
    rfl

theorem splice_single (n : Str) (x : Tok) (ts : List Tok) :
    splice n [x] ts = ts.map (stok n x) := by
  induction ts with
  | nil => rfl
  | cons t rest ih =>
    show (if t = Tok.pat n then [x] else [t]) ++ splice n [x] rest = _
    by_cases h : t = Tok.pat n <;> simp [h, ih, stok]

theorem type_ne_colonFree {n m : Str} (hm : ':' ∉ m) : "type:".data ++ n ≠ m := by
  intro h
  apply hm
  rw [← h]
  exact List.mem_append.mpr (Or.inl (by decide))

theorem type_ne_frontSide (n : Str) : "type:".data ++ n ≠ "FrontSide".data := by
  intro h
  rw [show "type:".data = 't' :: "ype:".data from rfl, List.cons_append,
    show "FrontSide".data = 'F' :: "rontSide".data from rfl] at h
  exact absurd (List.head_eq_of_cons_eq h) (by decide)

theorem subAll_nil (fields : List Str) (ts : List Tok) :
    subAll fields [] ts = ts := by
  show ts.map (subAllTok fields []) = ts
  have h : ∀ t, subAllTok fields [] t = t := by
    intro t
    cases t <;> rfl
  calc ts.map (subAllTok fields []) = ts.map id := by
        exact List.map_congr_left fun t _ => h t
    _ = ts := List.map_id ts

theorem stok_pat_eq (n : Str) (x : Tok) : stok n x (Tok.pat n) = x := by
  simp [stok]

theorem stok_pat_ne {n b : Str} (x : Tok) (h : b ≠ n) :
    stok n x (Tok.pat b) = Tok.pat b := by
  simp [stok, h]

theorem stok_lit (n : Str) (x : Tok) (s : Str) : stok n x (Tok.lit s) = Tok.lit s := by
  simp [stok]

theorem subAllTok_lit (fields : List Str) (L : List (Str × Int)) (s : Str) :
    subAllTok fields L (Tok.lit s) = Tok.lit s := rfl

theorem subAllTok_pat (fields : List Str) (L : List (Str × Int)) (b : Str) :
    subAllTok fields L (Tok.pat b) =
      match L.find? (fun f => f.1 = b) with
      | some f => Tok.lit (fields.getD f.2.toNat [])
      | none =>
        match L.find? (fun f => "type:".data ++ f.1 = b) with
        | some _ => Tok.lit inputStr
        | none => Tok.pat b := rfl

/-- Pointwise: doing one field's two replacements and then simultaneously
substituting the remaining bindings equals simultaneously substituting all
bindings. -/
theorem subAllTok_step (fields : List Str) {n1 : Str} {i1 : Int}
    {rest : List (Str × Int)} (hcolon : ':' ∉ n1)
    (hrest : ∀ f ∈ rest, ':' ∉ f.1) (t : Tok) :
    subAllTok fields rest
      (stok ("type:".data ++ n1) (Tok.lit inputStr)
        (stok n1 (Tok.lit (fields.getD i1.toNat [])) t)) =
    subAllTok fields ((n1, i1) :: rest) t := by
  cases t with
  | lit s => rw [stok_lit, stok_lit, subAllTok_lit, subAllTok_lit]
  | pat b =>
    by_cases hb1 : b = n1
    · subst hb1
      rw [stok_pat_eq, stok_lit, subAllTok_lit, subAllTok_pat,
        List.find?_cons_of_pos rest (by simp)]
    · by_cases hb2 : b = "type:".data ++ n1
      · subst hb2
        rw [stok_pat_ne _ (type_ne_colonFree hcolon), stok_pat_eq, subAllTok_lit,
          subAllTok_pat]
        have hfind1 : ((n1, i1) :: rest).find? (fun f => f.1 = "type:".data ++ n1) = none := by
          apply List.find?_eq_none.mpr
          intro f hf
          simp only [decide_eq_true_eq]
          intro h
          rcases List.mem_cons.mp hf with rfl | hfr
          · exact type_ne_colonFree hcolon h.symm
          · exact type_ne_colonFree (hrest f hfr) h.symm
        rw [hfind1, List.find?_cons_of_pos rest (by simp)]
      · rw [stok_pat_ne _ hb1, stok_pat_ne _ hb2, subAllTok_pat, subAllTok_pat,
          List.find?_cons_of_neg rest (by simpa using fun h => hb1 h.symm),
          List.find?_cons_of_neg rest (by simpa using fun h => hb2 h.symm)]

theorem subAll_step (fields : List Str) {n1 : Str} {i1 : Int} {rest : List (Str × Int)}
    (hcolon : ':' ∉ n1) (hrest : ∀ f ∈ rest, ':' ∉ f.1) (ts : List Tok) :
    subAll fields rest
      (splice ("type:".data ++ n1) [Tok.lit inputStr]
        (splice n1 [Tok.lit (fields.getD i1.toNat [])] ts)) =
    subAll fields ((n1, i1) :: rest) ts := by
  rw [splice_single, splice_single]
  show (((ts.map _).map _).map _ : List Tok) = ts.map _
  rw [List.map_map, List.map_map]
  exact List.map_congr_left fun t _ => subAllTok_step fields hcolon hrest t

theorem subAllTok_patFS (fields : List Str) (M : List (Str × Int))
    (hM : ∀ f ∈ M, f.1 ≠ "FrontSide".data) :
    subAllTok fields M (Tok.pat "FrontSide".data) = Tok.pat "FrontSide".data := by
  rw [subAllTok_pat]
  have h1 : M.find? (fun f => f.1 = "FrontSide".data) = none :=
    List.find?_eq_none.mpr fun f hf => by simp [hM f hf]
  have h2 : M.find? (fun f => "type:".data ++ f.1 = "FrontSide".data) = none :=
    List.find?_eq_none.mpr fun f _ => by simp [type_ne_frontSide f.1]
  rw [h1, h2]

theorem subAllTok_eq_patFS {fields : List Str} {M : List (Str × Int)} {t : Tok}
    (h : subAllTok fields M t = Tok.pat "FrontSide".data) :
    t = Tok.pat "FrontSide".data := by
  cases t with
  | lit s => rw [subAllTok_lit] at h; exact Tok.noConfusion h
  | pat b =>
    rw [subAllTok_pat] at h
    cases hf : M.find? (fun f => f.1 = b) with
    | some f => rw [hf] at h; exact Tok.noConfusion h
    | none =>
      rw [hf] at h
      cases hg : M.find? (fun f => "type:".data ++ f.1 = b) with
      | some f => rw [hg] at h; exact Tok.noConfusion h
      | none => rw [hg] at h; exact h

theorem subAll_spliceFS (fields : List Str) (M : List (Str × Int))
    (hM : ∀ f ∈ M, f.1 ≠ "FrontSide".data) (b ts : List Tok) :
    subAll fields M (splice "FrontSide".data b ts) =
      splice "FrontSide".data (subAll fields M b) (subAll fields M ts) := by
  show (splice "FrontSide".data b ts).map (subAllTok fields M) = _
  rw [splice, List.map_flatMap]
  show _ = (ts.map (subAllTok fields M)).flatMap _
  rw [List.flatMap_map]
  congr 1
  funext t
  by_cases h : t = Tok.pat "FrontSide".data
  · subst h
    rw [if_pos rfl, if_pos (subAllTok_patFS fields M hM)]
    rfl
  · rw [if_neg h, if_neg (fun hc => h (subAllTok_eq_patFS hc))]
    rfl

theorem pat_notMem_subAll {fields : List Str} {M : List (Str × Int)} {ts : List Tok}
    (h : Tok.pat "FrontSide".data ∉ ts) :
    Tok.pat "FrontSide".data ∉ subAll fields M ts := by
  intro hmem
  rcases List.mem_map.mp hmem with ⟨t, ht, he⟩
  exact h (subAllTok_eq_patFS he ▸ ht)

/-- Splicing for `pat n` with a payload free of `pat n` removes every
`pat n` token. -/
theorem pat_notMem_splice_self {n : Str} {xts ts : List Tok}
    (hx : Tok.pat n ∉ xts) : Tok.pat n ∉ splice n xts ts := by
  intro hmem
  rcases List.mem_flatMap.mp hmem with ⟨t, ht, hin⟩
  by_cases he : t = Tok.pat n
  · rw [if_pos he] at hin
    exact hx hin
  · rw [if_neg he] at hin
    rcases List.mem_singleton.mp hin with rfl
    exact he rfl

/-- The canonical form of the token-level loop over a *non-empty* binding
list with good names: every binding is substituted simultaneously in both
formats, and `{{FrontSide}}` placeholders of the answer side receive the
fully substituted question side. -/
theorem loopT_canon (fields : List Str) :
    ∀ (rest : List (Str × Int)) (n1 : Str) (i1 : Int),
      GoodNames ((n1, i1) :: rest) →
      ∀ (t0 t1 : List Tok), Tok.pat "FrontSide".data ∉ t0 →
        loopT fields ((n1, i1) :: rest) (t0, t1) =
          (subAll fields ((n1, i1) :: rest) t0,
           splice "FrontSide".data (subAll fields ((n1, i1) :: rest) t0)
             (subAll fields ((n1, i1) :: rest) t1)) := by
  intro rest
  induction rest with
  | nil =>
    intro n1 i1 hG t0 t1 _
    obtain ⟨-, hprops⟩ := hG
    obtain ⟨-, hcolon, -⟩ := hprops (n1, i1) (List.mem_cons_self _ _)
    have hnil : ∀ f ∈ ([] : List (Str × Int)), ':' ∉ f.1 :=
      fun f hf => absurd hf (List.not_mem_nil f)
    have e0 := @subAll_step fields n1 i1 [] hcolon hnil t0
    have e1 := @subAll_step fields n1 i1 [] hcolon hnil t1
    rw [subAll_nil] at e0 e1
    show stepT fields (n1, i1) (t0, t1) = _
    dsimp only [stepT]
    rw [e0, e1]
  | cons f2 rest2 ih =>
    obtain ⟨n2, i2⟩ := f2
    intro n1 i1 hG t0 t1 hFS
    obtain ⟨hnodup, hprops⟩ := hG
    have hcolon : ':' ∉ n1 := (hprops (n1, i1) (List.mem_cons_self _ _)).2.1
    have hGtail : GoodNames ((n2, i2) :: rest2) :=
      ⟨(List.nodup_cons.mp hnodup).2, fun f hf => hprops f (List.mem_cons_of_mem _ hf)⟩
    have hrest_colon : ∀ f ∈ (n2, i2) :: rest2, ':' ∉ f.1 :=
      fun f hf => (hprops f (List.mem_cons_of_mem _ hf)).2.1
    have hrest_fs : ∀ f ∈ (n2, i2) :: rest2, f.1 ≠ "FrontSide".data :=
      fun f hf => (hprops f (List.mem_cons_of_mem _ hf)).2.2
    have hFS0 : Tok.pat "FrontSide".data ∉
        splice ("type:".data ++ n1) [Tok.lit inputStr]
          (splice n1 [Tok.lit (fields.getD i1.toNat [])] t0) :=
      pat_notMem_splice_lit (pat_notMem_splice_lit hFS)
    show loopT fields ((n2, i2) :: rest2) (stepT fields (n1, i1) (t0, t1)) = _
    rw [show stepT fields (n1, i1) (t0, t1) =
        (splice ("type:".data ++ n1) [Tok.lit inputStr]
          (splice n1 [Tok.lit (fields.getD i1.toNat [])] t0),
         splice "FrontSide".data
           (splice ("type:".data ++ n1) [Tok.lit inputStr]
             (splice n1 [Tok.lit (fields.getD i1.toNat [])] t0))
           (splice ("type:".data ++ n1) [Tok.lit inputStr]
             (splice n1 [Tok.lit (fields.getD i1.toNat [])] t1))) from rfl]
    rw [ih n2 i2 hGtail _ _ hFS0]
    rw [subAll_spliceFS fields ((n2, i2) :: rest2) hrest_fs]
    have hA : Tok.pat "FrontSide".data ∉
        subAll fields ((n2, i2) :: rest2)
          (splice ("type:".data ++ n1) [Tok.lit inputStr]
            (splice n1 [Tok.lit (fields.getD i1.toNat [])] t0)) :=
      pat_notMem_subAll hFS0
    rw [splice_keep (pat_notMem_splice_self hA)]
    rw [subAll_step fields hcolon hrest_colon t0, subAll_step fields hcolon hrest_colon t1]

theorem braceFree_getD {fields : List Str} (hv : ∀ s ∈ fields, BraceFree s) (k : Nat) :
    BraceFree (fields.getD k []) := by
  by_cases h : k < fields.length
  · rw [List.getD_eq_getElem fields [] h]
    exact hv _ (List.getElem_mem h)
  · rw [List.getD_eq_default]
    · intro c hc
      cases hc
    · omega

theorem WfToks_mTok {fields : List Str} (hv : ∀ s ∈ fields, BraceFree s)
    (f : Str × Int) {ts : List Tok} (hts : WfToks ts) : WfToks (mTok fields f ts) := by
  apply WfToks_splice
  · intro t ht
    rcases List.mem_singleton.mp ht with rfl
    exact (by decide : BraceFree inputStr)
  · apply WfToks_splice _ hts
    intro t ht
    rcases List.mem_singleton.mp ht with rfl
    exact braceFree_getD hv _

theorem specFold_render (fields : List Str) (hv : ∀ s ∈ fields, BraceFree s) :
    ∀ (L : List (Str × Int)) (t : List Tok), WfToks t → (∀ f ∈ L, BraceFree f.1) →
      L.foldl (specSubStep fields) (render t) =
        render (L.foldl (fun ts f => mTok fields f ts) t) := by
  intro L
  induction L with
  | nil => intro t _ _; rfl
  | cons f rest ih =>
    intro t ht hL
    obtain ⟨n, i⟩ := f
    have hbf : BraceFree n := hL (n, i) (List.mem_cons_self _ _)
    have hwv : WfToks (splice n [Tok.lit (fields.getD i.toNat [])] t) := by
      apply WfToks_splice _ ht
      intro u hu
      rcases List.mem_singleton.mp hu with rfl
      exact braceFree_getD hv _
    have e : specSubStep fields (render t) (n, i) = render (mTok fields (n, i) t) := by
      dsimp only [specSubStep, mTok, fieldPat, typePat]
      rw [replList_render_lit hbf _ t ht,
        replList_render_lit (braceFree_append (by decide) hbf) inputStr _ hwv]
    show rest.foldl (specSubStep fields) (specSubStep fields (render t) (n, i)) = _
    rw [e, ih (mTok fields (n, i) t) (WfToks_mTok hv (n, i) ht)
      (fun g hg => hL g (List.mem_cons_of_mem _ hg))]
    rfl

theorem foldl_mTok_subAll (fields : List Str) :
    ∀ (L : List (Str × Int)), (∀ f ∈ L, ':' ∉ f.1) → ∀ (ts : List Tok),
      L.foldl (fun ts f => mTok fields f ts) ts = subAll fields L ts := by
  intro L
  induction L with
  | nil =>
    intro _ ts
    rw [subAll_nil]
    rfl
  | cons f rest ih =>
    intro hL ts
    obtain ⟨n, i⟩ := f
    show rest.foldl _ (mTok fields (n, i) ts) = _
    rw [ih fun g hg => hL g (List.mem_cons_of_mem _ hg)]
    dsimp only [mTok]
    exact subAll_step fields (hL (n, i) (List.mem_cons_self _ _))
      (fun g hg => hL g (List.mem_cons_of_mem _ hg)) ts

theorem WfToks_subAll (fields : List Str) (hv : ∀ s ∈ fields, BraceFree s)
    (M : List (Str × Int)) {ts : List Tok} (hts : WfToks ts) :
    WfToks (subAll fields M ts) := by
  intro t' ht'
  rcases List.mem_map.mp ht' with ⟨t, ht, rfl⟩
  cases t with
  | lit s =>
    rw [subAllTok_lit]
    exact hts _ ht
  | pat b =>
    rw [subAllTok_pat]
    cases hf : M.find? (fun f => f.1 = b) with
    | some f => exact braceFree_getD hv _
    | none =>
      dsimp only
      cases hg : M.find? (fun f => "type:".data ++ f.1 = b) with
      | some f => exact (by decide : BraceFree inputStr)
      | none => exact hts _ ht

/-- `find?` is permutation-invariant when at most one element satisfies the
predicate. -/
theorem find?_perm_unique {α : Type} {l l' : List α} (h : l.Perm l') (p : α → Bool)
    (huniq : ∀ x ∈ l, ∀ y ∈ l, p x = true → p y = true → x = y) :
    l.find? p = l'.find? p := by
  cases hx : l.find? p with
  | none =>
    cases hy : l'.find? p with
    | none => rfl
    | some y =>
      have hmem := List.mem_of_find?_eq_some hy
      have hpy := List.find?_some hy
      have := List.find?_eq_none.mp hx y (h.mem_iff.mpr hmem)
      exact absurd hpy this
  | some x =>
    have hmem := List.mem_of_find?_eq_some hx
    have hpx := List.find?_some hx
    cases hy : l'.find? p with
    | none =>
      have := List.find?_eq_none.mp hy x (h.mem_iff.mp hmem)
      exact absurd hpx this
    | some y =>
      have hmem' := h.mem_iff.mpr (List.mem_of_find?_eq_some hy)
      have hpy := List.find?_some hy
      rw [huniq x hmem y hmem' hpx hpy]

/-- With pairwise-distinct field names, simultaneous substitution does not
depend on the order of the binding list. -/
theorem subAll_perm (fields : List Str) {L L' : List (Str × Int)}
    (hperm : L.Perm L') (hnodup : (L.map Prod.fst).Nodup) (ts : List Tok) :
    subAll fields L ts = subAll fields L' ts := by
  apply List.map_congr_left
  intro t _
  cases t with
  | lit s => rw [subAllTok_lit, subAllTok_lit]
  | pat b =>
    have hname : L.find? (fun f => f.1 = b) = L'.find? (fun f => f.1 = b) := by
      apply find?_perm_unique hperm
      intro x hx y hy hpx hpy
      simp only [decide_eq_true_eq] at hpx hpy
      exact List.inj_on_of_nodup_map hnodup hx hy (hpx.trans hpy.symm)
    have htype : L.find? (fun f => "type:".data ++ f.1 = b) =
        L'.find? (fun f => "type:".data ++ f.1 = b) := by
      apply find?_perm_unique hperm
      intro x hx y hy hpx hpy
      simp only [decide_eq_true_eq] at hpx hpy
      exact List.inj_on_of_nodup_map hnodup hx hy
        (List.append_cancel_left (hpx.trans hpy.symm))
    rw [subAllTok_pat, subAllTok_pat, hname, htype]

/-- C3 counterexample: the `{{FrontSide}}` replacement is *not* performed
last per template — the code replaces it once per declared field, inside
the substitution loop, against the current (partially processed) question
format.  With question format `X{{FrontSide}}`, answer format
`{{FrontSide}}`, and two declared fields `A`, `B`, the code produces the
answer `XX{{FrontSide}}` (two interleaved replacements), while performing
the replacement last, after all field and type substitutions, produces
`X{{FrontSide}}`.  So the text substituted is not (only) the final front
text and the results differ. -/
theorem fieldLoop_frontSide_not_last :
    fieldLoop ["a".data, "b".data] [("A".data, 0), ("B".data, 1)]
        ("X\x7b\x7bFrontSide\x7d\x7d".data, "\x7b\x7bFrontSide\x7d\x7d".data) =
      Except.ok ("X\x7b\x7bFrontSide\x7d\x7d".data, "XX\x7b\x7bFrontSide\x7d\x7d".data) ∧
    specResolve ["a".data, "b".data] [("A".data, 0), ("B".data, 1)]
        "X\x7b\x7bFrontSide\x7d\x7d".data "\x7b\x7bFrontSide\x7d\x7d".data =
      ("X\x7b\x7bFrontSide\x7d\x7d".data, "X\x7b\x7bFrontSide\x7d\x7d".data) ∧
    fieldLoop ["a".data, "b".data] [("A".data, 0), ("B".data, 1)]
        ("X\x7b\x7bFrontSide\x7d\x7d".data, "\x7b\x7bFrontSide\x7d\x7d".data) ≠
      Except.ok (specResolve ["a".data, "b".data] [("A".data, 0), ("B".data, 1)]
        "X\x7b\x7bFrontSide\x7d\x7d".data "\x7b\x7bFrontSide\x7d\x7d".data) := by
  refine ⟨by decide, by decide, by decide⟩

/-- C3 amended: for well-formed formats (alternating brace-free literal
text and `{{…}}` placeholders with brace-free interiors), brace-free field
values, declared field names that are pairwise distinct, brace-free,
colon-free and distinct from `FrontSide`, in-bounds ordinals, at least one
declared field, and a question format containing no `{{FrontSide}}`
placeholder, the per-card substitution loop coincides with the
specification's reading: all field and type substitutions are applied to
both formats and every `{{FrontSide}}` is then replaced — last — by the
fully substituted question format.  In particular the front text
substituted for `{{FrontSide}}` is the fully substituted one. -/
theorem fieldLoop_spec_frontSide (fields : List Str) (L : List (Str × Int))
    (t0 t1 : List Tok)
    (hv : ∀ s ∈ fields, BraceFree s)
    (h0 : WfToks t0) (h1 : WfToks t1)
    (hG : GoodNames L) (hne : L ≠ [])
    (hFS : Tok.pat "FrontSide".data ∉ t0)
    (hB : ∀ f ∈ L, 0 ≤ f.2 ∧ f.2.toNat < fields.length) :
    fieldLoop fields L (render t0, render t1) =
      Except.ok (specResolve fields L (render t0) (render t1)) := by
  cases L with
  | nil => exact absurd rfl hne
  | cons f rest =>
    obtain ⟨n1, i1⟩ := f
    have hGf : ∀ g ∈ (n1, i1) :: rest,
        BraceFree g.1 ∧ 0 ≤ g.2 ∧ g.2.toNat < fields.length :=
      fun g hg => ⟨(hG.2 g hg).1, (hB g hg).1, (hB g hg).2⟩
    have hcolon : ∀ g ∈ (n1, i1) :: rest, ':' ∉ g.1 := fun g hg => (hG.2 g hg).2.1
    have hbrace : ∀ g ∈ (n1, i1) :: rest, BraceFree g.1 := fun g hg => (hG.2 g hg).1
    rw [fieldLoop_render fields hv _ t0 t1 h0 h1 hGf]
    rw [loopT_canon fields rest n1 i1 hG t0 t1 hFS]
    dsimp only [specResolve]
    rw [specFold_render fields hv _ t0 h0 hbrace, specFold_render fields hv _ t1 h1 hbrace,
      foldl_mTok_subAll fields _ hcolon t0, foldl_mTok_subAll fields _ hcolon t1]
    dsimp only [frontSidePat]
    rw [replList_render_gen (by decide : BraceFree "FrontSide".data) _ _
      (WfToks_subAll fields hv _ h1)]

/-- C3 witness: the claim's own concrete instance, resolved through the
amended theorem — question `{{Front}}`, answer `{{FrontSide}}<hr>{{Back}}`,
Front=`Q`, Back=`A` yields the answer `Q<hr>A`. -/
theorem fieldLoop_spec_frontSide_witness :
    fieldLoop ["Q".data, "A".data] [("Front".data, 0), ("Back".data, 1)]
        ("\x7b\x7bFront\x7d\x7d".data, "\x7b\x7bFrontSide\x7d\x7d<hr>\x7b\x7bBack\x7d\x7d".data) =
      Except.ok ("Q".data, "Q<hr>A".data) := by
  have h := fieldLoop_spec_frontSide ["Q".data, "A".data]
    [("Front".data, 0), ("Back".data, 1)]
    [Tok.pat "Front".data]
    [Tok.pat "FrontSide".data, Tok.lit "<hr>".data, Tok.pat "Back".data]
    (by decide) (by decide) (by decide) (by decide) (by decide) (by decide) (by decide)
  exact h.trans (by decide)

/-- C10 counterexample: the rendered pair is *not* independent of the
order in which the declared `(field name → ordinal)` pairs are processed.
With fields `A ↦ 0`, `B ↦ 1`, values `A = "{{B}}"`, `B = "x"` and question
format `{{A}}`, processing `A` before `B` yields `x` (the token introduced
by `A`'s value is substituted by the later `B` iteration), while processing
`B` before `A` leaves `{{B}}` in the output. -/
theorem fieldLoop_order_dependent :
    fieldLoop ["\x7b\x7bB\x7d\x7d".data, "x".data] [("A".data, 0), ("B".data, 1)]
        ("\x7b\x7bA\x7d\x7d".data, []) = Except.ok ("x".data, []) ∧
    fieldLoop ["\x7b\x7bB\x7d\x7d".data, "x".data] [("B".data, 1), ("A".data, 0)]
        ("\x7b\x7bA\x7d\x7d".data, []) = Except.ok ("\x7b\x7bB\x7d\x7d".data, []) ∧
    List.Perm [("A".data, (0 : Int)), ("B".data, 1)] [("B".data, 1), ("A".data, 0)] ∧
    fieldLoop ["\x7b\x7bB\x7d\x7d".data, "x".data] [("A".data, 0), ("B".data, 1)]
        ("\x7b\x7bA\x7d\x7d".data, []) ≠
      fieldLoop ["\x7b\x7bB\x7d\x7d".data, "x".data] [("B".data, 1), ("A".data, 0)]
        ("\x7b\x7bA\x7d\x7d".data, []) := by
  refine ⟨by decide, by decide, List.Perm.swap _ _ _, by decide⟩

/-- C10 amended: the per-card rendered pair is order-independent provided
no substituted value can introduce or destroy a placeholder: for
well-formed formats, brace-free field values, good (distinct, brace-free,
colon-free, non-`FrontSide`) declared names, in-bounds ordinals, at least
one declared field and a `{{FrontSide}}`-free question format, any two
processing orders of the declared `(field name → ordinal)` pairs produce
identical output.  (The counterexample shows the assumptions are needed: a
field value containing another field's placeholder makes the output depend
on the unspecified Go map iteration order.) -/
theorem fieldLoop_order_irrelevant (fields : List Str) (L L' : List (Str × Int))
    (t0 t1 : List Tok) (hperm : L.Perm L')
    (hv : ∀ s ∈ fields, BraceFree s)
    (h0 : WfToks t0) (h1 : WfToks t1)
    (hG : GoodNames L) (hne : L ≠ [])
    (hFS : Tok.pat "FrontSide".data ∉ t0)
    (hB : ∀ f ∈ L, 0 ≤ f.2 ∧ f.2.toNat < fields.length) :
    fieldLoop fields L' (render t0, render t1) =
      fieldLoop fields L (render t0, render t1) := by
  have hG' : GoodNames L' :=
    ⟨((hperm.map Prod.fst).nodup_iff).mp hG.1,
     fun f hf => hG.2 f (hperm.mem_iff.mpr hf)⟩
  have hB' : ∀ f ∈ L', 0 ≤ f.2 ∧ f.2.toNat < fields.length :=
    fun f hf => hB f (hperm.mem_iff.mpr hf)
  have hne' : L' ≠ [] := by
    intro h
    subst h
    exact hne hperm.eq_nil
  cases hL : L with
  | nil => exact absurd hL hne
  | cons f rest =>
    cases hL' : L' with
    | nil => exact absurd hL' hne'
    | cons f' rest' =>
      obtain ⟨n1, i1⟩ := f
      obtain ⟨m1, j1⟩ := f'
      subst hL hL'
      have hGf : ∀ g ∈ (n1, i1) :: rest,
          BraceFree g.1 ∧ 0 ≤ g.2 ∧ g.2.toNat < fields.length :=
        fun g hg => ⟨(hG.2 g hg).1, (hB g hg).1, (hB g hg).2⟩
      have hGf' : ∀ g ∈ (m1, j1) :: rest',
          BraceFree g.1 ∧ 0 ≤ g.2 ∧ g.2.toNat < fields.length :=
        fun g hg => ⟨(hG'.2 g hg).1, (hB' g hg).1, (hB' g hg).2⟩
      rw [fieldLoop_render fields hv _ t0 t1 h0 h1 hGf,
        fieldLoop_render fields hv _ t0 t1 h0 h1 hGf',
        loopT_canon fields rest n1 i1 hG t0 t1 hFS,
        loopT_canon fields rest' m1 j1 hG' t0 t1 hFS,
        subAll_perm fields hperm hG.1 t0, subAll_perm fields hperm hG.1 t1]

/-- C10 witness: on the claim C3 example instance, the two processing
orders of the two declared fields agree, via the amended theorem. -/
theorem fieldLoop_order_irrelevant_witness :
    fieldLoop ["Q".data, "A".data] [("Back".data, 1), ("Front".data, 0)]
        ("\x7b\x7bFront\x7d\x7d".data, "\x7b\x7bFrontSide\x7d\x7d<hr>\x7b\x7bBack\x7d\x7d".data) =
      fieldLoop ["Q".data, "A".data] [("Front".data, 0), ("Back".data, 1)]
        ("\x7b\x7bFront\x7d\x7d".data, "\x7b\x7bFrontSide\x7d\x7d<hr>\x7b\x7bBack\x7d\x7d".data) :=
  fieldLoop_order_irrelevant ["Q".data, "A".data]
    [("Front".data, 0), ("Back".data, 1)] [("Back".data, 1), ("Front".data, 0)]
    [Tok.pat "Front".data]
    [Tok.pat "FrontSide".data, Tok.lit "<hr>".data, Tok.pat "Back".data]
    (List.Perm.swap _ _ _)
    (by decide) (by decide) (by decide) (by decide) (by decide) (by decide) (by decide)

/-! ## Behaviour of the loops -/

theorem fieldLoop_error {fields : List Str} :
    ∀ {L : List (Str × Int)} {fmt : Str × Str} {e : Err},
      fieldLoop fields L fmt = Except.error e → e = Err.panicOOB := by
  intro L
  induction L with
  | nil => intro fmt e h; exact Except.noConfusion h
  | cons f rest ih =>
    intro fmt e h
    obtain ⟨n, i⟩ := f
    rw [fieldLoop] at h
    by_cases hc : 0 ≤ i ∧ i.toNat < fields.length
    · rw [if_pos hc] at h
      exact ih h
    · rw [if_neg hc] at h
      exact (Except.error.inj h).symm

theorem fieldLoop_ok {fields : List Str} {L : List (Str × Int)}
    (hB : ∀ f ∈ L, 0 ≤ f.2 ∧ f.2.toNat < fields.length) :
    ∀ fmt : Str × Str, ∃ v, fieldLoop fields L fmt = Except.ok v := by
  induction L with
  | nil => intro fmt; exact ⟨fmt, rfl⟩
  | cons f rest ih =>
    intro fmt
    obtain ⟨n, i⟩ := f
    rw [fieldLoop, if_pos (hB (n, i) (List.mem_cons_self _ _))]
    exact ih (fun g hg => hB g (List.mem_cons_of_mem _ hg)) _

theorem fieldLoop_empty {fields : List Str} {L : List (Str × Int)}
    (hB : ∀ f ∈ L, 0 ≤ f.2 ∧ f.2.toNat < fields.length) :
    fieldLoop fields L ([], []) = Except.ok ([], []) := by
  induction L with
  | nil => rfl
  | cons f rest ih =>
    obtain ⟨n, i⟩ := f
    rw [fieldLoop, if_pos (hB (n, i) (List.mem_cons_self _ _))]
    exact ih fun g hg => hB g (List.mem_cons_of_mem _ hg)

theorem cardLoop_errors (fr : Int → List (Str × Int)) (tm : Int → Int → Str × Str)
    (cs : Int → Str) (n2m : Int → Int) (n2f : Int → Str) (dt : Str) :
    ∀ (cards : List Card) (deckId : Int) (acc : List (Str × Str × Str)) (e : Err),
      cardLoop fr tm cs n2m n2f dt cards deckId acc = Except.error e →
      e = Err.multipleDecks ∨ e = Err.panicOOB := by
  intro cards
  induction cards with
  | nil => intro _ _ e h; exact Except.noConfusion h
  | cons c rest ih =>
    intro deckId acc e h
    rw [cardLoop] at h
    cases hf : fieldLoop (splitOnChar unitSep (n2f c.nid)) (fr (n2m c.nid))
        (tm (n2m c.nid) c.ord) with
    | error e' =>
      rw [hf] at h
      dsimp only at h
      right
      rw [← Except.error.inj h]
      exact fieldLoop_error hf
    | ok fmt =>
      rw [hf] at h
      dsimp only at h
      by_cases hd : deckId ≠ -1 ∧ deckId ≠ c.did ∧ dt = []
      · rw [if_pos hd] at h
        left
        exact (Except.error.inj h).symm
      · rw [if_neg hd] at h
        exact ih _ _ e h

theorem cardLoop_no_panic (fr : Int → List (Str × Int)) (tm : Int → Int → Str × Str)
    (cs : Int → Str) (n2m : Int → Int) (n2f : Int → Str) (dt : Str) :
    ∀ (cards : List Card) (deckId : Int) (acc : List (Str × Str × Str)),
      (∀ c ∈ cards, ∀ f ∈ fr (n2m c.nid),
        0 ≤ f.2 ∧ f.2.toNat < (splitOnChar unitSep (n2f c.nid)).length) →
      cardLoop fr tm cs n2m n2f dt cards deckId acc ≠ Except.error Err.panicOOB := by
  intro cards
  induction cards with
  | nil => intro _ _ _ h; exact Except.noConfusion h
  | cons c rest ih =>
    intro deckId acc hbnd h
    rw [cardLoop] at h
    obtain ⟨fmt, hf⟩ := fieldLoop_ok (hbnd c (List.mem_cons_self _ _))
      (tm (n2m c.nid) c.ord)
    rw [hf] at h
    dsimp only at h
    by_cases hd : deckId ≠ -1 ∧ deckId ≠ c.did ∧ dt = []
    · rw [if_pos hd] at h
      exact Err.noConfusion (Except.error.inj h)
    · rw [if_neg hd] at h
      exact ih _ _ (fun c' hc' => hbnd c' (List.mem_cons_of_mem _ hc')) h

theorem cardLoop_ok (fr : Int → List (Str × Int)) (tm : Int → Int → Str × Str)
    (cs : Int → Str) (n2m : Int → Int) (n2f : Int → Str) {dt : Str} (hdt : dt ≠ []) :
    ∀ (cards : List Card) (deckId : Int) (acc : List (Str × Str × Str)),
      (∀ c ∈ cards, ∀ f ∈ fr (n2m c.nid),
        0 ≤ f.2 ∧ f.2.toNat < (splitOnChar unitSep (n2f c.nid)).length) →
      ∃ v, cardLoop fr tm cs n2m n2f dt cards deckId acc = Except.ok v := by
  intro cards
  induction cards with
  | nil => intro deckId acc _; exact ⟨(acc, deckId), rfl⟩
  | cons c rest ih =>
    intro deckId acc hbnd
    rw [cardLoop]
    obtain ⟨fmt, hf⟩ := fieldLoop_ok (hbnd c (List.mem_cons_self _ _))
      (tm (n2m c.nid) c.ord)
    rw [hf]
    dsimp only
    rw [if_neg (by intro hcon; exact hdt hcon.2.2)]
    exact ih _ _ fun c' hc' => hbnd c' (List.mem_cons_of_mem _ hc')

/-- C4: the caller-supplied title override does *not* short-circuit the
deck-derived title: `data.Title = decksInfo[deckId]` runs unconditionally
after the card loop, so with override `"T"`, one card in deck 1 named
`"D"`, the final title is `"D"`, not `"T"`; without an override the title
is likewise the last-seen deck's display name. -/
theorem makeQueries_title_overridden :
    makeQueries [⟨[], [(1, "D".data)]⟩] [] [⟨1, 1, 0⟩] "T".data =
      Except.ok ([([], [], [])], "D".data) ∧
    makeQueries [⟨[], [(1, "D".data)]⟩] [] [⟨1, 1, 0⟩] [] =
      Except.ok ([([], [], [])], "D".data) ∧
    ("D".data : Str) ≠ "T".data :=
  ⟨by decide, by decide, by decide⟩

/-- C6: row-count checks of `makeQueries`.  If the number of collection
rows differs from one, it fails with the not-one-collection error (even
when there are also zero cards — that check runs first); with one
collection row and zero cards it fails with the no-cards error; with one
collection row and at least one card neither of the two errors can be the
result.  The checks run before the loop, and the model returns `Except`,
so no output is produced alongside either error. -/
theorem makeQueries_row_checks (cols : List Collection) (notes : List Note)
    (cards : List Card) (t : Str) :
    (cols.length ≠ 1 → makeQueries cols notes cards t =
        Except.error (Err.notOneCollection cols.length)) ∧
    (cols.length = 1 → cards = [] →
        makeQueries cols notes cards t = Except.error Err.noCards) ∧
    (cols.length = 1 → cards ≠ [] →
      (∀ n : Nat, makeQueries cols notes cards t ≠ Except.error (Err.notOneCollection n)) ∧
      makeQueries cols notes cards t ≠ Except.error Err.noCards) := by
  refine ⟨?_, ?_, ?_⟩
  · intro h
    unfold makeQueries
    rw [if_pos h]
  · intro h1 h2
    unfold makeQueries
    rw [if_neg (by omega), if_pos h2]
  · intro h1 h2
    cases cols with
    | nil => simp at h1
    | cons col tl =>
      cases tl with
      | cons _ _ => simp at h1
      | nil =>
        have hmq : makeQueries [col] notes cards t =
            (match cardLoop (frsOf col) (tmplOf col) (cssOf col) (nid2mid notes)
                (nid2flds notes) (if t = [] then [] else t) cards (-1) [] with
             | .error e => Except.error e
             | .ok (out, deckId) =>
               Except.ok (out, (goMapGet col.decks deckId).getD [])) := by
          unfold makeQueries
          rw [if_neg (by simp), if_neg h2]
        cases hloop : cardLoop (frsOf col) (tmplOf col) (cssOf col) (nid2mid notes)
            (nid2flds notes) (if t = [] then [] else t) cards (-1) [] with
        | error e =>
          rw [hloop] at hmq
          dsimp only at hmq
          rcases cardLoop_errors _ _ _ _ _ _ cards (-1) [] e hloop with rfl | rfl
          · exact ⟨fun n h => Err.noConfusion (Except.error.inj (hmq ▸ h)),
              fun h => Err.noConfusion (Except.error.inj (hmq ▸ h))⟩
          · exact ⟨fun n h => Err.noConfusion (Except.error.inj (hmq ▸ h)),
              fun h => Err.noConfusion (Except.error.inj (hmq ▸ h))⟩
        | ok pr =>
          obtain ⟨out, did⟩ := pr
          rw [hloop] at hmq
          dsimp only at hmq
          exact ⟨fun n h => Except.noConfusion (hmq ▸ h),
            fun h => Except.noConfusion (hmq ▸ h)⟩

/-- C6 witness: the three branches at concrete inputs. -/
theorem makeQueries_row_checks_witness :
    makeQueries [] [] [] [] = Except.error (Err.notOneCollection 0) ∧
    makeQueries [⟨[], []⟩] [] [] [] = Except.error Err.noCards ∧
    makeQueries [⟨[], []⟩] [] [⟨1, 1, 0⟩] [] ≠ Except.error Err.noCards :=
  ⟨(makeQueries_row_checks [] [] [] []).1 (by decide),
   (makeQueries_row_checks [⟨[], []⟩] [] [] []).2.1 (by decide) rfl,
   ((makeQueries_row_checks [⟨[], []⟩] [] [⟨1, 1, 0⟩] []).2.2 (by decide) (by decide)).2⟩

/-- C5 counterexample: the deck-change check compares against the previous
deck id using `-1` as the "no previous card" sentinel, so a first card
whose deck id happens to *be* `-1` disables the check for the next card:
two cards with differing deck ids (`-1` and `7`) and no title override
resolve successfully instead of failing with the multiple-decks error. -/
theorem makeQueries_sentinel_deck :
    ((⟨1, -1, 0⟩ : Card).did ≠ (⟨1, 7, 0⟩ : Card).did) ∧
    makeQueries [⟨[], [(7, "D".data)]⟩] [] [⟨1, -1, 0⟩, ⟨1, 7, 0⟩] [] =
      Except.ok ([([], [], []), ([], [], [])], "D".data) :=
  ⟨by decide, by decide⟩

/-- C5 amended: (1) with a title override (and in-bounds ordinals, so the
loop cannot panic first) resolution succeeds outright, ignoring any
deck-id mismatches; (2) without an override, a card whose deck id differs
from the previous card's deck id — when that previous deck id is not the
`-1` sentinel — makes resolution fail with the multiple-decks error (shown
for a mismatch at the first two cards, with in-bounds ordinals so the
field loop reaches the check). -/
theorem makeQueries_multiple_decks (col : Collection) (notes : List Note) (t : Str) :
    (∀ (cards : List Card), cards ≠ [] → t ≠ [] →
        (∀ c ∈ cards, cardInBounds col notes c) →
        ∃ v, makeQueries [col] notes cards t = Except.ok v) ∧
    (∀ (c1 c2 : Card) (rest : List Card), t = [] → c1.did ≠ -1 → c1.did ≠ c2.did →
        cardInBounds col notes c1 → cardInBounds col notes c2 →
        makeQueries [col] notes (c1 :: c2 :: rest) t = Except.error Err.multipleDecks) := by
  constructor
  · intro cards hc ht hbnd
    unfold makeQueries
    rw [if_neg (by simp), if_neg hc]
    dsimp only
    rw [if_neg ht]
    obtain ⟨v, hv⟩ := cardLoop_ok (frsOf col) (tmplOf col) (cssOf col) (nid2mid notes)
      (nid2flds notes) ht cards (-1) [] hbnd
    rw [hv]
    exact ⟨_, rfl⟩
  · intro c1 c2 rest ht h1 h2 hb1 hb2
    subst ht
    unfold makeQueries
    rw [if_neg (by simp), if_neg (by simp)]
    dsimp only
    rw [if_pos rfl, cardLoop]
    obtain ⟨f1, hf1⟩ := fieldLoop_ok hb1 (tmplOf col (nid2mid notes c1.nid) c1.ord)
    rw [hf1]
    dsimp only
    rw [if_neg (by intro hcon; exact hcon.1 rfl), cardLoop]
    obtain ⟨f2, hf2⟩ := fieldLoop_ok hb2 (tmplOf col (nid2mid notes c2.nid) c2.ord)
    rw [hf2]
    dsimp only
    rw [if_pos ⟨h1, h2, rfl⟩]

/-- C5 witness: both halves of the amended statement at concrete inputs:
with override `"T"` two cards in decks 3 and 7 resolve; without an
override they fail with the multiple-decks error. -/
theorem makeQueries_multiple_decks_witness :
    (∃ v, makeQueries [⟨[], []⟩] [] [⟨1, 3, 0⟩, ⟨1, 7, 0⟩] "T".data = Except.ok v) ∧
    makeQueries [⟨[], []⟩] [] [⟨1, 3, 0⟩, ⟨1, 7, 0⟩] [] =
      Except.error Err.multipleDecks :=
  ⟨(makeQueries_multiple_decks ⟨[], []⟩ [] "T".data).1 [⟨1, 3, 0⟩, ⟨1, 7, 0⟩]
      (by decide) (by decide) (by decide),
   (makeQueries_multiple_decks ⟨[], []⟩ [] []).2 ⟨1, 3, 0⟩ ⟨1, 7, 0⟩ []
      rfl (by decide) (by decide) (by decide) (by decide)⟩

/-- C7 counterexample: a card whose note id resolves to no loaded note
(and hence whose model id `0` resolves to no model, and whose template
ordinal resolves to no template) does **not** fail with a
referential-integrity error — every lookup miss yields the Go zero value
and the card is rendered as an empty triple. -/
theorem makeQueries_dangling_no_error :
    nid2mid [] 5 = 0 ∧
    goMapGet (Collection.mk [] []).models 0 = none ∧
    makeQueries [⟨[], []⟩] [] [⟨5, 3, 7⟩] [] = Except.ok ([([], [], [])], []) :=
  ⟨by decide, by decide, by decide⟩

/-- C7 amended: lookup misses during card resolution are not errors — the
engine renders from Go zero values.  (1) If the card's model id (obtained
from the note lookup, `0` when the note itself is missing) resolves to no
model, the card renders as the triple `("", "", "")`.  (2) If the model
resolves but the card's template ordinal is not in its template table (and
the declared ordinals are in bounds, so the field loop cannot panic), the
card renders as `(model's css, "", "")`.  In both cases resolution
succeeds. -/
theorem makeQueries_miss_renders_zero (col : Collection) (notes : List Note)
    (c : Card) :
    (goMapGet col.models (nid2mid notes c.nid) = none →
      makeQueries [col] notes [c] [] =
        Except.ok ([([], [], [])], (goMapGet col.decks c.did).getD [])) ∧
    (∀ m : Model, goMapGet col.models (nid2mid notes c.nid) = some m →
      goMapGet m.tmpls c.ord = none →
      (∀ f ∈ m.flds, 0 ≤ f.2 ∧
        f.2.toNat < (splitOnChar unitSep (nid2flds notes c.nid)).length) →
      makeQueries [col] notes [c] [] =
        Except.ok ([(m.css, [], [])], (goMapGet col.decks c.did).getD [])) := by
  constructor
  · intro hmodel
    have e1 : frsOf col (nid2mid notes c.nid) = [] := by
      unfold frsOf
      rw [hmodel]
    have e2 : tmplOf col (nid2mid notes c.nid) c.ord = ([], []) := by
      unfold tmplOf
      rw [hmodel]
    have e3 : cssOf col (nid2mid notes c.nid) = [] := by
      unfold cssOf
      rw [hmodel]
    unfold makeQueries
    rw [if_neg (by simp), if_neg (by simp)]
    dsimp only
    rw [if_pos rfl, cardLoop, e1, e2]
    rw [show fieldLoop (splitOnChar unitSep (nid2flds notes c.nid)) [] (([] : Str), ([] : Str)) =
        Except.ok (([] : Str), ([] : Str)) from rfl]
    dsimp only
    rw [if_neg (by intro hcon; exact hcon.1 rfl), e3]
    rfl
  · intro m hmodel htmpl hbnd
    have e1 : frsOf col (nid2mid notes c.nid) = m.flds := by
      unfold frsOf
      rw [hmodel]
    have e2 : tmplOf col (nid2mid notes c.nid) c.ord = ([], []) := by
      unfold tmplOf
      rw [hmodel]
      dsimp only
      rw [htmpl]
      rfl
    have e3 : cssOf col (nid2mid notes c.nid) = m.css := by
      unfold cssOf
      rw [hmodel]
    unfold makeQueries
    rw [if_neg (by simp), if_neg (by simp)]
    dsimp only
    rw [if_pos rfl, cardLoop, e1, e2, fieldLoop_empty hbnd]
    dsimp only
    rw [if_neg (by intro hcon; exact hcon.1 rfl), e3]
    rfl

/-- C7 witness: both halves at concrete inputs — a dangling note id
renders the empty triple; a present model with a missing template ordinal
renders its css with empty sides. -/
theorem makeQueries_miss_renders_zero_witness :
    makeQueries [⟨[], []⟩] [] [⟨5, 3, 7⟩] [] = Except.ok ([([], [], [])], []) ∧
    makeQueries [⟨[(1, ⟨"c".data, [("F".data, 0)], []⟩)], []⟩] [⟨2, 1, "v".data⟩]
        [⟨2, 3, 9⟩] [] = Except.ok ([("c".data, [], [])], []) :=
  ⟨(makeQueries_miss_renders_zero ⟨[], []⟩ [] ⟨5, 3, 7⟩).1 (by decide),
   (makeQueries_miss_renders_zero ⟨[(1, ⟨"c".data, [("F".data, 0)], []⟩)], []⟩
      [⟨2, 1, "v".data⟩] ⟨2, 3, 9⟩).2 ⟨"c".data, [("F".data, 0)], []⟩
      (by decide) (by decide) (by decide)⟩

/-- C9 counterexample: a declared field ordinal `5` outside the bounds of
the note's single split field value does not produce a reported
data-integrity error — it hits the unguarded Go slice access
`fields[index]`, i.e. a runtime panic that aborts the program (modelled as
the distinguished `Err.panicOOB`). -/
theorem makeQueries_oob_panics :
    makeQueries [⟨[(1, ⟨[], [("F".data, 5)], []⟩)], []⟩] [⟨1, 1, "v".data⟩]
        [⟨1, 1, 0⟩] [] = Except.error Err.panicOOB := by decide

/-- C9 amended: the out-of-bounds field access is *unguarded* — it panics
(aborts) rather than reporting a data-integrity error; and under the
precondition that every declared ordinal of every processed card is within
the bounds of that card's split field list, the panic is unreachable. -/
theorem makeQueries_no_panic (col : Collection) (notes : List Note)
    (cards : List Card) (t : Str)
    (hbnd : ∀ c ∈ cards, cardInBounds col notes c) :
    makeQueries [col] notes cards t ≠ Except.error Err.panicOOB := by
  intro h
  unfold makeQueries at h
  rw [if_neg (by simp)] at h
  by_cases hc : cards = []
  · rw [if_pos hc] at h
    exact Err.noConfusion (Except.error.inj h)
  · rw [if_neg hc] at h
    dsimp only at h
    cases hloop : cardLoop (frsOf col) (tmplOf col) (cssOf col) (nid2mid notes)
        (nid2flds notes) (if t = [] then [] else t) cards (-1) [] with
    | error e =>
      rw [hloop] at h
      dsimp only at h
      rw [Except.error.inj h] at hloop
      exact cardLoop_no_panic _ _ _ _ _ _ cards (-1) [] hbnd hloop
    | ok pr =>
      obtain ⟨out, did⟩ := pr
      rw [hloop] at h
      dsimp only at h
      exact Except.noConfusion h

/-- C9 witness: with the single declared ordinal `0` in bounds, the same
shape of input cannot produce the panic. -/
theorem makeQueries_no_panic_witness :
    makeQueries [⟨[(1, ⟨[], [("F".data, 0)], []⟩)], []⟩] [⟨1, 1, "v".data⟩]
        [⟨1, 1, 0⟩] [] ≠ Except.error Err.panicOOB :=
  makeQueries_no_panic _ _ _ _ (by decide)

/-! ## Behaviour of the sound-tag rewriting -/

theorem soundRewrite_skip_open : ∀ {x : Str}, '[' ∉ x →
    ∀ (y : Str), soundRewrite (x ++ y) = x ++ soundRewrite y := by
  intro x
  induction x with
  | nil => intro _ y; simp
  | cons c cs ih =>
    intro hx y
    have hpre : ¬ soundMark <+: (c :: (cs ++ y)) := by
      intro hp
      rw [show soundMark = '[' :: "sound:".data from rfl] at hp
      rcases List.cons_prefix_cons.mp hp with ⟨h1, -⟩
      exact hx (by rw [h1]; exact List.mem_cons_self c cs)
    rw [List.cons_append, soundRewrite_skip hpre,
      ih (fun hc' => hx (List.mem_cons_of_mem c hc')) y]
    rfl

theorem takeWhile_append_of_all {p : Char → Bool} :
    ∀ {f : Str}, (∀ c ∈ f, p c = true) → ∀ (l : Str),
      (f ++ l).takeWhile p = f ++ l.takeWhile p := by
  intro f
  induction f with
  | nil => intro _ l; rfl
  | cons c cs ih =>
    intro hf l
    rw [List.cons_append, List.takeWhile_cons,
      if_pos (hf c (List.mem_cons_self c cs)),
      ih (fun c' hc' => hf c' (List.mem_cons_of_mem c hc')) l]
    rfl

theorem lastIdx_none {c : Char} : ∀ {l : Str}, c ∉ l → lastIdx c l = none := by
  intro l
  induction l with
  | nil => intro _; rfl
  | cons x xs ih =>
    intro hx
    rw [lastIdx, ih fun h => hx (List.mem_cons_of_mem x h)]
    rw [if_neg fun h => hx (by rw [← h]; exact List.mem_cons_self x xs)]

theorem lastIdx_append_self {c : Char} {tb : Str} (htb : c ∉ tb) :
    ∀ (f : Str), lastIdx c (f ++ c :: tb) = some f.length := by
  intro f
  induction f with
  | nil =>
    rw [List.nil_append, lastIdx, lastIdx_none htb, if_pos rfl]
    rfl
  | cons x xs ih =>
    rw [List.cons_append, lastIdx, ih]
    simp

theorem matchSound_decomp {f b : Str} (hf1 : f ≠ []) (hf3 : '\n' ∉ f)
    (hb2 : ']' ∉ b.takeWhile (fun c => c ≠ '\n')) :
    matchSound (f ++ ']' :: b) = some (f, b) := by
  have hfall : ∀ c ∈ f, (fun c => decide (c ≠ '\n')) c = true := by
    intro c hc
    simp only [decide_eq_true_eq]
    intro h
    exact hf3 (h ▸ hc)
  have hrun : (f ++ ']' :: b).takeWhile (fun c => decide (c ≠ '\n')) =
      f ++ ']' :: b.takeWhile (fun c => decide (c ≠ '\n')) := by
    rw [takeWhile_append_of_all hfall, List.takeWhile_cons, if_pos (by decide)]
  unfold matchSound
  dsimp only
  rw [hrun, lastIdx_append_self hb2 f]
  dsimp only
  rw [if_pos (Nat.one_le_iff_ne_zero.mpr (by
    intro h
    exact hf1 (List.eq_nil_of_length_eq_zero h)))]
  rw [show f ++ ']' :: b.takeWhile (fun c => decide (c ≠ '\n')) =
      f ++ (']' :: b.takeWhile (fun c => decide (c ≠ '\n'))) from rfl,
    List.take_left]
  rw [show f ++ ']' :: b = (f ++ [']']) ++ b by simp,
    show f.length + 1 = (f ++ [']']).length by simp,
    List.drop_left]

theorem soundRewrite_at_tag {f b : Str} (hf1 : f ≠ []) (hf3 : '\n' ∉ f)
    (hb2 : ']' ∉ b.takeWhile (fun c => c ≠ '\n')) :
    soundRewrite (soundMark ++ (f ++ ']' :: b)) = audioElem f ++ soundRewrite b := by
  have hdrop : (soundMark ++ (f ++ ']' :: b)).drop 7 = f ++ ']' :: b := by
    rw [show (7 : Nat) = soundMark.length from rfl, List.drop_left]
  have hpre : soundMark <+: ('[' :: ("sound:".data ++ (f ++ ']' :: b))) := by
    rw [show ('[' :: ("sound:".data ++ (f ++ ']' :: b))) = soundMark ++ (f ++ ']' :: b)
      from rfl]
    exact List.prefix_append _ _
  rw [show soundMark ++ (f ++ ']' :: b) = '[' :: ("sound:".data ++ (f ++ ']' :: b))
    from rfl]
  rw [soundRewrite_match hpre (by
    rw [show ('[' :: ("sound:".data ++ (f ++ ']' :: b))) = soundMark ++ (f ++ ']' :: b)
      from rfl, hdrop]
    exact matchSound_decomp hf1 hf3 hb2)]

theorem mem_replListF {p r : Str} {ch : Char} :
    ∀ {fuel : Nat} {s : Str}, ch ∈ replListF p r fuel s → ch ∈ r ∨ ch ∈ s := by
  intro fuel
  induction fuel with
  | zero => intro s h; right; exact h
  | succ fuel ih =>
    intro s h
    cases s with
    | nil => exact absurd h (List.not_mem_nil ch)
    | cons c cs =>
      rw [replListF] at h
      by_cases hc : p ≠ [] ∧ p <+: (c :: cs)
      · rw [if_pos hc] at h
        rcases List.mem_append.mp h with h | h
        · exact Or.inl h
        · rcases ih h with h | h
          · exact Or.inl h
          · exact Or.inr (List.mem_of_mem_drop h)
      · rw [if_neg hc] at h
        rcases List.mem_cons.mp h with rfl | h
        · exact Or.inr (List.mem_cons_self _ _)
        · rcases ih h with h | h
          · exact Or.inl h
          · exact Or.inr (List.mem_cons_of_mem c h)

theorem open_notMem_audioElem {f : Str} (hf : '[' ∉ f) : '[' ∉ audioElem f := by
  intro h
  rcases mem_replListF h with h | h
  · exact hf h
  · exact absurd h (by decide)

theorem hasInfix_false {h0 : Char} {pt : Str} :
    ∀ {s : Str}, h0 ∉ s → hasInfix (h0 :: pt) s = false := by
  intro s
  induction s with
  | nil => intro _; rfl
  | cons c cs ih =>
    intro hs
    have h1 : ¬ (h0 :: pt) <+: (c :: cs) := by
      intro hp
      rcases List.cons_prefix_cons.mp hp with ⟨he, -⟩
      exact hs (by rw [he]; exact List.mem_cons_self c cs)
    rw [hasInfix, ih fun h => hs (List.mem_cons_of_mem c h)]
    simp [h1]

/-- C8 counterexample: the sound regex `\[sound:(.+)\]` is greedy, so two
sound references on one side are swallowed by a *single* match whose
capture is `a.mp3] and [sound:b.mp3` — the produced audio markup
references that garbage capture rather than each filename, and the
literal `[sound:` bracket syntax *remains* in the output (inside the
`src` attribute).  The field value arrives through field substitution, so
this is the resolved card output of `makeQueries`. -/
theorem makeQueries_sound_greedy :
    makeQueries
        [⟨[(1, ⟨[], [("F".data, 0)], [(0, ("\x7b\x7bF\x7d\x7d".data, []))]⟩)],
          [(1, "D".data)]⟩]
        [⟨1, 1, "[sound:a.mp3] and [sound:b.mp3]".data⟩]
        [⟨1, 1, 0⟩] [] =
      Except.ok ([([], audioElem "a.mp3] and [sound:b.mp3".data, [])], "D".data) ∧
    hasInfix "[sound:".data (audioElem "a.mp3] and [sound:b.mp3".data) = true :=
  ⟨by decide, by decide⟩

/-- C8 amended: the rewriting is a single global substitution of the
greedy pattern per side, applied after field substitution.  When a side
decomposes as `a ++ "[sound:" ++ f ++ "]" ++ b` where `a` and `b` contain
no `[`, the filename `f` is non-empty and newline-free and `[`-free, and
no further `]` occurs on `b`'s first line (so the greedy capture stops at
the tag's own `]`), the side rewrites to `a ++ audio markup for f ++ b`,
the markup references exactly `f`, and no literal `[sound:` remains. -/
theorem soundRewrite_single_tag (a f b : Str)
    (ha : '[' ∉ a) (hf1 : f ≠ []) (hf3 : '\n' ∉ f) (hf4 : '[' ∉ f)
    (hb1 : '[' ∉ b) (hb2 : ']' ∉ b.takeWhile (fun c => c ≠ '\n')) :
    soundRewrite (a ++ soundMark ++ f ++ ']' :: b) = a ++ audioElem f ++ b ∧
    hasInfix soundMark (a ++ audioElem f ++ b) = false := by
  have hsb : soundRewrite b = b := by
    have h := soundRewrite_skip_open hb1 []
    rwa [List.append_nil, soundRewrite_nil, List.append_nil] at h
  constructor
  · rw [show a ++ soundMark ++ f ++ ']' :: b = a ++ (soundMark ++ (f ++ ']' :: b)) by
      simp [List.append_assoc]]
    rw [soundRewrite_skip_open ha, soundRewrite_at_tag hf1 hf3 hb2, hsb,
      List.append_assoc]
  · have hopen : '[' ∉ a ++ audioElem f ++ b := by
      intro h
      rcases List.mem_append.mp h with h | h
      · rcases List.mem_append.mp h with h | h
        · exact ha h
        · exact open_notMem_audioElem hf4 h
      · exact hb1 h
    exact hasInfix_false hopen

/-- C8 witness: a single well-formed tag `[sound:bell.mp3]` between plain
text rewrites to the audio markup for `bell.mp3` with no bracket syntax
left, via the amended theorem. -/
theorem soundRewrite_single_tag_witness :
    soundRewrite "x [sound:bell.mp3] y".data =
      "x ".data ++ audioElem "bell.mp3".data ++ " y".data ∧
    hasInfix soundMark ("x ".data ++ audioElem "bell.mp3".data ++ " y".data) = false := by
  have h := soundRewrite_single_tag "x ".data "bell.mp3".data " y".data
    (by decide) (by decide) (by decide) (by decide) (by decide) (by decide)
  exact ⟨(by decide :
      ("x [sound:bell.mp3] y".data : Str) =
        "x ".data ++ soundMark ++ "bell.mp3".data ++ ']' :: " y".data) ▸ h.1, h.2⟩
